import Mathlib

/-!
# Verification of the `orderddl` DDL reordering tool

A shallow embedding of `src/main.go`.  The program reads a SQL DDL file,
extracts a foreign-key dependency graph (`parseDDL`), orders tables with
Kahn's algorithm (`topologicalSort`), and rewrites the file with each
table's verbatim block in dependency order (`reorderDDL`).

Go maps are modelled as association lists whose iteration order is the
insertion order (a deterministic refinement of Go's unspecified map
iteration order); Go `int` is modelled as `Int`.  File I/O is out of
scope: the pipeline is modelled as a function from the list of input
lines to the output text, `Option`-valued because a cycle error aborts
the program.
-/

namespace OrderDDL

/-- `\w` of Go's regexp: ASCII letters, digits and underscore. -/
def isWordChar (c : Char) : Bool := c.isAlphanum || c = '_'

/-- The identifier-quoting character (ASCII 96) that the patterns allow
around a table name. -/
def quoteChar : Char := Char.ofNat 96

/-- Case-insensitive literal keyword match: `pat` is given in lower case;
returns the remaining input on success.  Models the literal part of the
`(?i)` regular expressions. -/
def matchKeyword : List Char → List Char → Option (List Char)
  | [], s => some s
  | _ :: _, [] => none
  | p :: ps, c :: cs => if c.toLower = p then matchKeyword ps cs else none

/-- Consume the optional identifier quote (greedy `?`). -/
def afterQuote : List Char → List Char
  | [] => []
  | c :: r => if c = quoteChar then r else c :: r

/-- Attempt to match `KEYWORD \x60?(\w+)\x60?` at the start of `s`,
returning the captured identifier.  The quote consumption mirrors the
regexp backtracking: consuming the optional quote and failing on `\w+`
can never be rescued by not consuming it, because the quote itself is
not a word character. -/
def captureAt (kw : List Char) (s : List Char) : Option String :=
  match matchKeyword kw s with
  | none => none
  | some rest =>
    if (afterQuote rest).takeWhile isWordChar = [] then none
    else some (String.mk ((afterQuote rest).takeWhile isWordChar))

/-- Leftmost match of `KEYWORD \x60?(\w+)\x60?` anywhere in the line,
like Go's `FindStringSubmatch`. -/
def findCapture (kw : List Char) : List Char → Option String
  | [] => none
  | c :: cs =>
    match captureAt kw (c :: cs) with
    | some w => some w
    | none => findCapture kw cs

/-- `TABLE_PATTERN`: the keyword of the CREATE TABLE regular expression. -/
def createKw : List Char := [
  'c', 'r', 'e', 'a', 't', 'e', ' ', 't', 'a', 'b', 'l', 'e', ' ']

/-- `REFERENCES_PATTERN`: the keyword of the REFERENCES regular expression. -/
def refsKw : List Char := [
  'r', 'e', 'f', 'e', 'r', 'e', 'n', 'c', 'e', 's', ' ']

/-- The captured table name of the line's first CREATE TABLE match. -/
def findCreate (s : String) : Option String := findCapture createKw s.data

/-- The captured parent name of the line's first REFERENCES match. -/
def findRefs (s : String) : Option String := findCapture refsKw s.data

/-- `strings.TrimSpace`: drop whitespace from both ends. -/
def trimLine (s : String) : String :=
  String.mk (((s.data.dropWhile Char.isWhitespace).reverse.dropWhile
    Char.isWhitespace).reverse)

/-- Substring test on character lists. -/
def hasSubstr (pat : List Char) : List Char → Bool
  | [] => pat.isEmpty
  | c :: cs => pat.isPrefixOf (c :: cs) || hasSubstr pat cs

/-- The "foreign key" keyword. -/
def fkKw : List Char := [
  'f', 'o', 'r', 'e', 'i', 'g', 'n', ' ', 'k', 'e', 'y']

/-- `strings.Contains(strings.ToLower(line), "foreign key")`. -/
def containsFK (s : String) : Bool := hasSubstr fkKw (s.data.map Char.toLower)

/-- Go map modelling: the dependency graph, parent table to the ordered
list of dependent (child) tables. -/
abbrev Graph := List (String × List String)

/-- Go map modelling: the in-degree of each table. -/
abbrev InDeg := List (String × Int)

/-- Map write `m[k] = v`: replace the first binding of `k`, or append a
fresh binding at the end (insertion order models Go map iteration). -/
def setA {β : Type} (m : List (String × β)) (k : String) (v : β) :
    List (String × β) :=
  match m with
  | [] => [(k, v)]
  | (k', v') :: rest => if k' = k then (k, v) :: rest else (k', v') :: setA rest k v

/-- Map read `graph[k]` with Go's zero value `[]` for a missing key. -/
def getG (g : Graph) (t : String) : List String := (List.lookup t g).getD []

/-- Map read `inDegree[k]` with Go's zero value `0` for a missing key. -/
def getD (d : InDeg) (t : String) : Int := (List.lookup t d).getD 0

/-- The key list of an association list. -/
def keysOf {β : Type} (m : List (String × β)) : List String := m.map Prod.fst

/-- The state threaded through `parseDDL`'s scan loop. -/
structure ParseState where
  graph : Graph
  inDegree : InDeg
  tableOrder : List String
  currentTable : String
deriving Repr, DecidableEq

/-- The initial `parseDDL` state: empty maps, `currentTable` unset. -/
def initParse : ParseState := ⟨[], [], [], ""⟩

/-- The CREATE TABLE branch of `parseDDL`'s loop: set the current
table, record the appearance order, and register the table in the graph
and the in-degree map when absent. -/
def applyCreate (st : ParseState) (name : String) : ParseState :=
  { st with
    currentTable := name
    tableOrder := st.tableOrder ++ [name]
    graph := if (List.lookup name st.graph).isSome then st.graph
             else setA st.graph name []
    inDegree := if (List.lookup name st.inDegree).isSome then st.inDegree
                else setA st.inDegree name 0 }

/-- The FOREIGN KEY branch of `parseDDL`'s loop with a current table
set: append the edge parent → current table and increment the current
table's in-degree. -/
def applyFK (st : ParseState) (parentTable : String) : ParseState :=
  { st with
    graph := setA st.graph parentTable (getG st.graph parentTable ++ [st.currentTable])
    inDegree := setA st.inDegree st.currentTable (getD st.inDegree st.currentTable + 1) }

/-- The CREATE TABLE detection step of `parseDDL`'s loop. -/
def parseCreateStep (st : ParseState) (line : String) : ParseState :=
  match findCreate line with
  | some name => applyCreate st name
  | none => st

/-- The FOREIGN KEY detection step of `parseDDL`'s loop: requires the
line to contain "foreign key" and to match the REFERENCES pattern, and
records an edge only when a current table is set. -/
def parseFKStep (st : ParseState) (line : String) : ParseState :=
  if containsFK line then
    match findRefs line with
    | some parentTable =>
      if st.currentTable ≠ "" then applyFK st parentTable else st
    | none => st
  else st

/-- One iteration of `parseDDL`'s scanner loop on a raw input line:
trim, detect CREATE TABLE, then detect a FOREIGN KEY ... REFERENCES
clause (which sees a `currentTable` updated by the same line). -/
def parseLine (st : ParseState) (rawLine : String) : ParseState :=
  parseFKStep (parseCreateStep st (trimLine rawLine)) (trimLine rawLine)

/-- `parseDDL`: scan all lines, producing the dependency graph, the
in-degree map and the table appearance order. -/
def parseDDL (lines : List String) : Graph × InDeg × List String :=
  let st := lines.foldl parseLine initParse
  (st.graph, st.inDegree, st.tableOrder)

/-- One pass of the inner `for _, dependent := range graph[current]`
loop: decrement each dependent's in-degree in turn and collect, in
order, the dependents whose in-degree reaches exactly 0. -/
def decrementDeps (d : InDeg) : List String → InDeg × List String
  | [] => (d, [])
  | x :: rest =>
    let v := getD d x - 1
    let d' := setA d x v
    let (d'', q) := decrementDeps d' rest
    if v = 0 then (d'', x :: q) else (d'', q)

/-- The Kahn worklist loop, fuelled.  Returns the sorted sequence and
the final (drained) in-degree map; `none` only on fuel exhaustion,
which `kahnFuel` is proved to rule out. -/
def kahnLoop : Nat → List String → Graph → InDeg → List String →
    Option (List String × InDeg)
  | _, [], _, d, sorted => some (sorted, d)
  | 0, _ :: _, _, _, _ => none
  | fuel + 1, current :: rest, g, d, sorted =>
    let (d', newQ) := decrementDeps d (getG g current)
    kahnLoop fuel (rest ++ newQ) g d' (sorted ++ [current])

/-- The initial queue: every table of in-degree 0, in map (= insertion)
order. -/
def initQueue (d : InDeg) : List String :=
  (d.filter (fun e => e.2 = 0)).map Prod.fst

/-- The fuel potential: queue length plus the sum of the nonnegative
parts of the in-degrees; proved to strictly decrease per iteration. -/
def sumToNat (d : InDeg) : Nat := (d.map (fun e => e.2.toNat)).sum

/-- `topologicalSort`: Kahn's algorithm.  Returns `none` exactly when
the program prints the cyclic-dependency error and exits: the sorted
sequence is shorter than the number of graph entries. -/
def topologicalSort (g : Graph) (d : InDeg) : Option (List String) :=
  let q := initQueue d
  match kahnLoop (q.length + sumToNat d) q g d [] with
  | some (sorted, _) => if sorted.length = g.length then some sorted else none
  | none => none

/-- The state threaded through `reorderDDL`'s block-splitting scan. -/
structure BlockState where
  content : List (String × String)
  currentTable : String
  acc : String
deriving Repr, DecidableEq

/-- The initial block-splitting state. -/
def initBlocks : BlockState := ⟨[], "", ""⟩

/-- The CREATE TABLE detection step of `reorderDDL`'s splitting loop:
seal the open block (if any) into the map and open a block for the
matched name. -/
def blockCreateStep (st : BlockState) (line : String) : BlockState :=
  match findCreate line with
  | some name =>
    if st.currentTable ≠ "" then
      { content := setA st.content st.currentTable st.acc
        currentTable := name
        acc := "" }
    else { st with currentTable := name }
  | none => st

/-- The accumulation step of `reorderDDL`'s splitting loop: while a
block is open, append the raw line plus a newline to it. -/
def blockAppendStep (st : BlockState) (line : String) : BlockState :=
  if st.currentTable ≠ "" then { st with acc := st.acc ++ line ++ "\n" } else st

/-- One iteration of `reorderDDL`'s splitting loop on a raw (untrimmed)
line: on a CREATE TABLE match seal the open block and open a new one;
while a block is open append the line plus a newline. -/
def blockStep (st : BlockState) (line : String) : BlockState :=
  blockAppendStep (blockCreateStep st line) line

/-- The block-splitting scan over all lines. -/
def scanBlocks (lines : List String) (st : BlockState) : BlockState :=
  lines.foldl blockStep st

/-- Seal the block left open at end of input. -/
def finalizeBlocks (st : BlockState) : List (String × String) :=
  if st.currentTable ≠ "" then setA st.content st.currentTable st.acc else st.content

/-- The table-to-block map `ddlContent` built by `reorderDDL`. -/
def buildBlocksMap (lines : List String) : List (String × String) :=
  finalizeBlocks (scanBlocks lines initBlocks)

/-- Sequential concatenation, modelling the writer's `WriteString` loop. -/
def strConcat : List String → String
  | [] => ""
  | s :: rest => s ++ strConcat rest

/-- Each line followed by a line terminator, concatenated. -/
def joinNL (lines : List String) : String := strConcat (lines.map (fun l => l ++ "\n"))

/-- The text written by `reorderDDL`: each sorted table's block when
present in the block map, in order; absent tables are skipped. -/
def outputDDL (lines : List String) (sortedTables : List String) : String :=
  strConcat (sortedTables.filterMap (fun t => List.lookup t (buildBlocksMap lines)))

/-- `processSQL`: the whole pipeline on the input lines.  `none` models
the fatal cyclic-dependency abort (no output written); `some s` models a
successful run writing exactly `s`. -/
def processSQL (lines : List String) : Option String :=
  let (g, d, _) := parseDDL lines
  (topologicalSort g d).map (fun sortedTables => outputDDL lines sortedTables)

/-! ## Specification-side notions used to state the claims -/

/-- The number of edges into `t`: occurrences of `t` as a child across
all adjacency lists of the graph. -/
def countChild (g : Graph) (t : String) : Nat :=
  (g.map (fun e => e.2.count t)).sum

/-- The number of edges into `t` whose parent lies in `done` (counted
with multiplicity, one per adjacency-list occurrence). -/
def fromDone (g : Graph) (done : List String) (t : String) : Nat :=
  (done.map (fun p => (getG g p).count t)).sum

/-- Reachability along one or more graph edges. -/
inductive Reaches (g : Graph) : String → String → Prop
  | step {p c : String} : c ∈ getG g p → Reaches g p c
  | trans {a b c : String} : Reaches g a b → Reaches g b c → Reaches g a c

/-- The graph contains a directed cycle. -/
def HasCycle (g : Graph) : Prop := ∃ t, Reaches g t t

/-- The invariants of the `parseDDL` scan state. -/
structure ParseInv (st : ParseState) : Prop where
  degCount : ∀ t, getD st.inDegree t = (countChild st.graph t : Int)
  nodupG : (keysOf st.graph).Nodup
  nodupD : (keysOf st.inDegree).Nodup
  childMem : ∀ p c, c ∈ getG st.graph p → c ∈ keysOf st.inDegree
  dSubG : ∀ t ∈ keysOf st.inDegree, t ∈ keysOf st.graph
  curMem : st.currentTable = "" ∨ st.currentTable ∈ keysOf st.inDegree
  dCreated : ∀ t, t ∈ keysOf st.inDegree ↔ t ∈ st.tableOrder

/-- The loop invariant of Kahn's algorithm, over the fixed graph `g`
and the fixed key set `keysD` of the initial in-degree map. -/
structure KInv (g : Graph) (keysD : List String) (q : List String) (d : InDeg)
    (sorted : List String) : Prop where
  sortedSub : ∀ t ∈ sorted, t ∈ keysD
  queueSub : ∀ t ∈ q, t ∈ keysD
  sortedNodup : sorted.Nodup
  queueNodup : q.Nodup
  queueIff : ∀ t, t ∈ q ↔ t ∈ keysD ∧ t ∉ sorted ∧ getD d t = 0
  degEq : ∀ t, getD d t = (countChild g t : Int) - (fromDone g sorted t : Int)
  sortedNonpos : ∀ t ∈ sorted, getD d t ≤ 0
  order : ∀ p c, c ∈ getG g p → c ∈ sorted →
    p ∈ sorted ∧ sorted.indexOf p < sorted.indexOf c

/-- A decomposition of a line list into table blocks: each block starts
with a line whose CREATE TABLE match captures the block's name, and no
other line of the block matches CREATE TABLE. -/
inductive Segmented : List String → List (String × List String) → Prop
  | nil : Segmented [] []
  | block {l : String} {name : String} {body rest : List String}
      {segs : List (String × List String)} :
      findCreate l = some name →
      (∀ b ∈ body, findCreate b = none) →
      Segmented rest segs →
      Segmented (l :: body ++ rest) ((name, l :: body) :: segs)

/-! ## Association list lemmas -/

theorem keysOf_cons {β : Type} (k : String) (v : β) (rest : List (String × β)) :
    keysOf ((k, v) :: rest) = k :: keysOf rest := rfl

theorem lookup_setA_self {β : Type} (m : List (String × β)) (k : String) (v : β) :
    List.lookup k (setA m k v) = some v := by
  induction m with
  | nil => simp [setA, List.lookup]
  | cons e rest ih =>
    obtain ⟨k', v'⟩ := e
    by_cases h : k' = k
    · subst h
      simp [setA, List.lookup]
    · have hb : (k == k') = false := beq_eq_false_iff_ne.mpr (Ne.symm h)
      simp [setA, h, List.lookup, hb, ih]

theorem lookup_setA_ne {β : Type} (m : List (String × β)) (k k' : String) (v : β)
    (h : k' ≠ k) : List.lookup k' (setA m k v) = List.lookup k' m := by
  have hb : (k' == k) = false := beq_eq_false_iff_ne.mpr h
  induction m with
  | nil => simp [setA, List.lookup, hb]
  | cons e rest ih =>
    obtain ⟨ka, va⟩ := e
    by_cases hk : ka = k
    · subst hk
      simp [setA, List.lookup, hb]
    · simp [setA, hk, List.lookup, ih]

theorem mem_keysOf_iff {β : Type} (m : List (String × β)) (t : String) :
    t ∈ keysOf m ↔ (List.lookup t m).isSome := by
  induction m with
  | nil => simp [keysOf, List.lookup]
  | cons e rest ih =>
    obtain ⟨k, v⟩ := e
    by_cases h : t = k
    · subst h
      simp [keysOf_cons, List.lookup]
    · have hb : (t == k) = false := beq_eq_false_iff_ne.mpr h
      simp [keysOf_cons, List.lookup, h, hb, ih]

theorem keysOf_setA_mem {β : Type} (m : List (String × β)) (k : String) (v : β)
    (h : k ∈ keysOf m) : keysOf (setA m k v) = keysOf m := by
  induction m with
  | nil => simp [keysOf] at h
  | cons e rest ih =>
    obtain ⟨ka, va⟩ := e
    by_cases hk : ka = k
    · subst hk
      simp [setA, keysOf_cons]
    · simp only [keysOf_cons, List.mem_cons] at h
      rcases h with h | h
      · exact absurd h.symm hk
      · simp [setA, hk, keysOf_cons, ih h]

theorem keysOf_setA_not_mem {β : Type} (m : List (String × β)) (k : String) (v : β)
    (h : k ∉ keysOf m) : keysOf (setA m k v) = keysOf m ++ [k] := by
  induction m with
  | nil => simp [setA, keysOf]
  | cons e rest ih =>
    obtain ⟨ka, va⟩ := e
    simp only [keysOf_cons, List.mem_cons] at h
    push_neg at h
    have hk : ka ≠ k := fun hh => h.1 hh.symm
    simp [setA, hk, keysOf_cons, ih h.2]

theorem nodup_keysOf_setA {β : Type} (m : List (String × β)) (k : String) (v : β)
    (h : (keysOf m).Nodup) : (keysOf (setA m k v)).Nodup := by
  by_cases hm : k ∈ keysOf m
  · rw [keysOf_setA_mem m k v hm]
    exact h
  · rw [keysOf_setA_not_mem m k v hm]
    simp [List.nodup_append, h, hm]

theorem getG_setA_self (g : Graph) (p : String) (L : List String) :
    getG (setA g p L) p = L := by
  simp [getG, lookup_setA_self]

theorem getG_setA_ne (g : Graph) (p q : String) (L : List String) (h : q ≠ p) :
    getG (setA g p L) q = getG g q := by
  simp [getG, lookup_setA_ne _ _ _ _ h]

theorem getD_setA_self (d : InDeg) (k : String) (v : Int) :
    getD (setA d k v) k = v := by
  simp [getD, lookup_setA_self]

theorem getD_setA_ne (d : InDeg) (k q : String) (v : Int) (h : q ≠ k) :
    getD (setA d k v) q = getD d q := by
  simp [getD, lookup_setA_ne _ _ _ _ h]

theorem mem_keysOf_of_mem {β : Type} {m : List (String × β)} {k : String}
    {v : β} (h : (k, v) ∈ m) : k ∈ keysOf m :=
  List.mem_map.mpr ⟨(k, v), h, rfl⟩

theorem lookup_eq_of_mem_nodup {β : Type} {m : List (String × β)} {k : String}
    {v : β} (hnd : (keysOf m).Nodup) (h : (k, v) ∈ m) :
    List.lookup k m = some v := by
  induction m with
  | nil => simp at h
  | cons e rest ih =>
    obtain ⟨ka, va⟩ := e
    rw [keysOf_cons] at hnd
    rcases List.mem_cons.mp h with heq | hmem
    · injection heq with h1 h2
      subst h1
      subst h2
      simp [List.lookup]
    · have hk : k ≠ ka := by
        intro hkk
        subst hkk
        exact (List.nodup_cons.mp hnd).1 (mem_keysOf_of_mem hmem)
      have hb : (k == ka) = false := beq_eq_false_iff_ne.mpr hk
      simp [List.lookup, hb, ih (List.nodup_cons.mp hnd).2 hmem]

theorem mem_of_lookup_eq_some {β : Type} {m : List (String × β)} {k : String}
    {v : β} (h : List.lookup k m = some v) : (k, v) ∈ m := by
  induction m with
  | nil => simp [List.lookup] at h
  | cons e rest ih =>
    obtain ⟨ka, va⟩ := e
    by_cases hk : k = ka
    · subst hk
      simp [List.lookup] at h
      simp [h]
    · have hb : (k == ka) = false := beq_eq_false_iff_ne.mpr hk
      simp only [List.lookup, hb] at h
      exact List.mem_cons_of_mem _ (ih h)

theorem mem_keysOf_of_getG_mem {g : Graph} {p c : String} (h : c ∈ getG g p) :
    p ∈ keysOf g := by
  rw [mem_keysOf_iff]
  cases hl : List.lookup p g with
  | none => simp [getG, hl] at h
  | some l => simp [hl]

/-! ## The dependency extractor: countChild and ParseInv lemmas -/

theorem countChild_append (g1 g2 : Graph) (t : String) :
    countChild (g1 ++ g2) t = countChild g1 t + countChild g2 t := by
  simp [countChild, List.sum_append]

theorem setA_eq_append_of_not_mem {β : Type} {m : List (String × β)} {k : String}
    (v : β) (h : k ∉ keysOf m) : setA m k v = m ++ [(k, v)] := by
  induction m with
  | nil => simp [setA]
  | cons e rest ih =>
    obtain ⟨ka, va⟩ := e
    simp only [keysOf_cons, List.mem_cons] at h
    push_neg at h
    have hk : ka ≠ k := fun hh => h.1 hh.symm
    simp [setA, hk, ih h.2]

theorem countChild_setA_append (g : Graph) (p c t : String) :
    countChild (setA g p (getG g p ++ [c])) t
      = countChild g t + (if c = t then 1 else 0) := by
  induction g with
  | nil =>
    simp [setA, countChild, getG, List.lookup, List.count_singleton']
  | cons e rest ih =>
    obtain ⟨k, l⟩ := e
    by_cases hk : k = p
    · subst hk
      have hg : getG ((k, l) :: rest) k = l := by
        simp [getG, List.lookup]
      simp only [setA, if_pos rfl, hg, countChild, List.map_cons, List.sum_cons,
        List.count_append, List.count_singleton']
      by_cases hct : c = t
      · simp [hct]
        omega
      · have hb : (c == t) = false := beq_eq_false_iff_ne.mpr hct
        simp [hct, hb, List.count_singleton']
    · have hg : getG ((k, l) :: rest) p = getG rest p := by
        have hb : (p == k) = false := beq_eq_false_iff_ne.mpr (Ne.symm hk)
        simp [getG, List.lookup, hb]
      simp only [setA, if_neg hk, hg, countChild, List.map_cons, List.sum_cons]
      have := ih
      simp only [countChild] at this
      omega

theorem mem_keysOf_setA_superset {β : Type} {m : List (String × β)} {k t : String}
    {v : β} (h : t ∈ keysOf m) : t ∈ keysOf (setA m k v) := by
  by_cases hm : k ∈ keysOf m
  · rw [keysOf_setA_mem m k v hm]
    exact h
  · rw [keysOf_setA_not_mem m k v hm]
    exact List.mem_append_left _ h

theorem parseInv_init : ParseInv initParse := by
  refine ⟨?_, ?_, ?_, ?_, ?_, ?_, ?_⟩ <;>
    simp [initParse, getD, getG, countChild, keysOf, List.lookup]

theorem parseInv_applyCreate {st : ParseState} (h : ParseInv st) (name : String) :
    ParseInv (applyCreate st name) := by
  obtain ⟨degCount, nodupG, nodupD, childMem, dSubG, curMem, dCreated⟩ := h
  have hGmem : ∀ t, t ∈ keysOf (applyCreate st name).graph ↔
      t ∈ keysOf st.graph ∨ t = name := by
    intro t
    simp only [applyCreate]
    by_cases hg : (List.lookup name st.graph).isSome
    · simp only [if_pos hg]
      have : name ∈ keysOf st.graph := (mem_keysOf_iff _ _).mpr hg
      constructor
      · exact fun hh => Or.inl hh
      · rintro (hh | rfl)
        · exact hh
        · exact this
    · have : name ∉ keysOf st.graph := fun hh => hg ((mem_keysOf_iff _ _).mp hh)
      simp [if_neg hg, keysOf_setA_not_mem _ _ _ this]
  have hDmem : ∀ t, t ∈ keysOf (applyCreate st name).inDegree ↔
      t ∈ keysOf st.inDegree ∨ t = name := by
    intro t
    simp only [applyCreate]
    by_cases hg : (List.lookup name st.inDegree).isSome
    · simp only [if_pos hg]
      have : name ∈ keysOf st.inDegree := (mem_keysOf_iff _ _).mpr hg
      constructor
      · exact fun hh => Or.inl hh
      · rintro (hh | rfl)
        · exact hh
        · exact this
    · have : name ∉ keysOf st.inDegree := fun hh => hg ((mem_keysOf_iff _ _).mp hh)
      simp [if_neg hg, keysOf_setA_not_mem _ _ _ this]
  have hGget : ∀ t, getG (applyCreate st name).graph t = getG st.graph t := by
    intro t
    simp only [applyCreate]
    by_cases hg : (List.lookup name st.graph).isSome
    · simp [if_pos hg]
    · simp only [if_neg hg]
      by_cases ht : t = name
      · subst ht
        rw [getG_setA_self]
        simp [getG]
        cases hl : List.lookup t st.graph with
        | none => simp
        | some l => simp [hl] at hg
      · rw [getG_setA_ne _ _ _ _ ht]
  have hDget : ∀ t, getD (applyCreate st name).inDegree t = getD st.inDegree t := by
    intro t
    simp only [applyCreate]
    by_cases hg : (List.lookup name st.inDegree).isSome
    · simp [if_pos hg]
    · simp only [if_neg hg]
      by_cases ht : t = name
      · subst ht
        rw [getD_setA_self]
        simp [getD]
        cases hl : List.lookup t st.inDegree with
        | none => simp
        | some l => simp [hl] at hg
      · rw [getD_setA_ne _ _ _ _ ht]
  have hCC : ∀ t, countChild (applyCreate st name).graph t = countChild st.graph t := by
    intro t
    simp only [applyCreate]
    by_cases hg : (List.lookup name st.graph).isSome
    · simp [if_pos hg]
    · have hnm : name ∉ keysOf st.graph := fun hh => hg ((mem_keysOf_iff _ _).mp hh)
      simp only [if_neg hg, setA_eq_append_of_not_mem _ hnm, countChild_append]
      simp [countChild]
  refine ⟨?_, ?_, ?_, ?_, ?_, ?_, ?_⟩
  · intro t
    rw [hDget, hCC]
    exact degCount t
  · simp only [applyCreate]
    by_cases hg : (List.lookup name st.graph).isSome
    · simpa [if_pos hg] using nodupG
    · simpa [if_neg hg] using nodup_keysOf_setA _ _ _ nodupG
  · simp only [applyCreate]
    by_cases hg : (List.lookup name st.inDegree).isSome
    · simpa [if_pos hg] using nodupD
    · simpa [if_neg hg] using nodup_keysOf_setA _ _ _ nodupD
  · intro p c hc
    rw [hGget] at hc
    exact (hDmem c).mpr (Or.inl (childMem p c hc))
  · intro t ht
    rcases (hDmem t).mp ht with ht | rfl
    · exact (hGmem t).mpr (Or.inl (dSubG t ht))
    · exact (hGmem t).mpr (Or.inr rfl)
  · right
    have : (applyCreate st name).currentTable = name := rfl
    rw [this]
    exact (hDmem name).mpr (Or.inr rfl)
  · intro t
    have hord : (applyCreate st name).tableOrder = st.tableOrder ++ [name] := rfl
    rw [hDmem, hord]
    simp [dCreated t, or_comm]
  
theorem parseInv_applyFK {st : ParseState} (h : ParseInv st)
    (hcur : st.currentTable ≠ "") (parentTable : String) :
    ParseInv (applyFK st parentTable) := by
  obtain ⟨degCount, nodupG, nodupD, childMem, dSubG, curMem, dCreated⟩ := h
  have hcurD : st.currentTable ∈ keysOf st.inDegree := curMem.resolve_left hcur
  have hDkeys : keysOf (applyFK st parentTable).inDegree = keysOf st.inDegree := by
    simp only [applyFK]
    exact keysOf_setA_mem _ _ _ hcurD
  refine ⟨?_, ?_, ?_, ?_, ?_, ?_, ?_⟩
  · intro t
    show getD (setA st.inDegree st.currentTable (getD st.inDegree st.currentTable + 1)) t
      = (countChild (setA st.graph parentTable (getG st.graph parentTable ++ [st.currentTable])) t : Int)
    rw [countChild_setA_append]
    by_cases ht : t = st.currentTable
    · subst ht
      rw [getD_setA_self]
      simp [degCount]
    · rw [getD_setA_ne _ _ _ _ ht]
      have : ¬(st.currentTable = t) := fun hh => ht hh.symm
      simp [this, degCount t]
  · exact nodup_keysOf_setA _ _ _ nodupG
  · exact nodup_keysOf_setA _ _ _ nodupD
  · intro p c hc
    rw [hDkeys]
    by_cases hp : p = parentTable
    · subst hp
      rw [show (applyFK st p).graph = setA st.graph p (getG st.graph p ++ [st.currentTable]) from rfl,
        getG_setA_self] at hc
      rcases List.mem_append.mp hc with hc | hc
      · exact childMem p c hc
      · simp at hc
        subst hc
        exact hcurD
    · rw [show (applyFK st parentTable).graph
          = setA st.graph parentTable (getG st.graph parentTable ++ [st.currentTable]) from rfl,
        getG_setA_ne _ _ _ _ hp] at hc
      exact childMem p c hc
  · intro t ht
    rw [hDkeys] at ht
    exact mem_keysOf_setA_superset (dSubG t ht)
  · rw [show (applyFK st parentTable).currentTable = st.currentTable from rfl, hDkeys]
    exact curMem
  · intro t
    rw [hDkeys]
    exact dCreated t


theorem parseInv_parseCreateStep {st : ParseState} (h : ParseInv st) (line : String) :
    ParseInv (parseCreateStep st line) := by
  unfold parseCreateStep
  cases hc : findCreate line with
  | some name => exact parseInv_applyCreate h name
  | none => exact h

theorem parseInv_parseFKStep {st : ParseState} (h : ParseInv st) (line : String) :
    ParseInv (parseFKStep st line) := by
  unfold parseFKStep
  by_cases hfk : containsFK line
  · simp only [if_pos hfk]
    cases hr : findRefs line with
    | some parentTable =>
      by_cases hcur : st.currentTable ≠ ""
      · simp only [if_pos hcur]
        exact parseInv_applyFK h hcur parentTable
      · simp only [if_neg hcur]
        exact h
    | none => exact h
  · simp only [if_neg hfk]
    exact h

theorem parseInv_parseLine {st : ParseState} (h : ParseInv st) (rawLine : String) :
    ParseInv (parseLine st rawLine) :=
  parseInv_parseFKStep (parseInv_parseCreateStep h (trimLine rawLine)) (trimLine rawLine)

theorem parseInv_fold (lines : List String) {st : ParseState} (h : ParseInv st) :
    ParseInv (lines.foldl parseLine st) := by
  induction lines generalizing st with
  | nil => exact h
  | cons l rest ih => exact ih (parseInv_parseLine h l)

theorem parseInv_parseDDL (lines : List String) :
    ParseInv (lines.foldl parseLine initParse) :=
  parseInv_fold lines parseInv_init

theorem parseFKStep_tableOrder (st : ParseState) (line : String) :
    (parseFKStep st line).tableOrder = st.tableOrder := by
  unfold parseFKStep
  by_cases hfk : containsFK line
  · simp only [if_pos hfk]
    cases hr : findRefs line with
    | some parentTable =>
      by_cases hcur : st.currentTable ≠ ""
      · simp [if_pos hcur, applyFK]
      · simp [if_neg hcur]
    | none => rfl
  · simp only [if_neg hfk]

theorem parseLine_tableOrder (st : ParseState) (l : String) :
    (parseLine st l).tableOrder = st.tableOrder ++ (findCreate (trimLine l)).toList := by
  unfold parseLine
  rw [parseFKStep_tableOrder]
  unfold parseCreateStep
  cases hc : findCreate (trimLine l) with
  | some name => simp [applyCreate]
  | none => simp

theorem fold_tableOrder (lines : List String) (st : ParseState) :
    (lines.foldl parseLine st).tableOrder
      = st.tableOrder ++ lines.filterMap (fun l => findCreate (trimLine l)) := by
  induction lines generalizing st with
  | nil => simp
  | cons l rest ih =>
    simp only [List.foldl_cons, ih, parseLine_tableOrder, List.filterMap_cons]
    cases hc : findCreate (trimLine l) <;> simp [hc]

theorem parseLine_no_create {st : ParseState} {l : String}
    (hcur : st.currentTable = "") (hc : findCreate (trimLine l) = none) :
    parseLine st l = st := by
  unfold parseLine parseCreateStep
  rw [hc]
  unfold parseFKStep
  by_cases hfk : containsFK (trimLine l)
  · simp only [if_pos hfk]
    cases hr : findRefs (trimLine l) with
    | some parentTable => simp [hcur]
    | none => rfl
  · simp only [if_neg hfk]

theorem fold_no_create {lines : List String} {st : ParseState}
    (hcur : st.currentTable = "") (h : ∀ l ∈ lines, findCreate (trimLine l) = none) :
    lines.foldl parseLine st = st := by
  induction lines with
  | nil => rfl
  | cons l rest ih =>
    simp only [List.foldl_cons]
    rw [parseLine_no_create hcur (h l (List.mem_cons_self l rest))]
    exact ih (fun x hx => h x (List.mem_cons_of_mem _ hx))





/-! ## Block-splitting lemmas -/

theorem blockStep_no_create {st : BlockState} {l : String}
    (hcur : st.currentTable = "") (hc : findCreate l = none) :
    blockStep st l = st := by
  unfold blockStep blockCreateStep
  rw [hc]
  unfold blockAppendStep
  simp [hcur]

theorem scanBlocks_no_create {pre : List String} {st : BlockState}
    (hcur : st.currentTable = "") (h : ∀ l ∈ pre, findCreate l = none) :
    scanBlocks pre st = st := by
  induction pre with
  | nil => rfl
  | cons l rest ih =>
    unfold scanBlocks
    simp only [List.foldl_cons]
    rw [blockStep_no_create hcur (h l (List.mem_cons_self l rest))]
    exact ih (fun x hx => h x (List.mem_cons_of_mem _ hx))

/-! ## Claim C5 -/

/-- C5: when `parseDDL` returns, every table's in-degree equals the
number of edges pointing into it in the returned graph (occurrences as
a child across all adjacency lists, with multiplicity, so that repeated
foreign keys to the same parent each count once). -/
theorem inDegree_counts_incoming_edges (lines : List String) (t : String) :
    getD (parseDDL lines).2.1 t = (countChild (parseDDL lines).1 t : Int) :=
  (parseInv_parseDDL lines).degCount t

/-! ## Claim C8 -/

/-- C8: a line containing "foreign key" and matching the REFERENCES
pattern that is scanned while no CREATE TABLE line has been seen yet is
silently ignored by `parseDDL`: dropping it from the input leaves the
whole parse result unchanged (no edge, no in-degree change, no failure). -/
theorem fk_before_create_ignored (pre : List String) (line : String)
    (post : List String)
    (hpre : ∀ l ∈ pre, findCreate (trimLine l) = none)
    (_hfk : containsFK (trimLine line) = true)
    (_hrefs : (findRefs (trimLine line)).isSome = true)
    (hline : findCreate (trimLine line) = none) :
    parseDDL (pre ++ line :: post) = parseDDL (pre ++ post) := by
  unfold parseDDL
  rw [List.foldl_append, List.foldl_append, fold_no_create rfl hpre,
    List.foldl_cons, parseLine_no_create rfl hline]

/-- Witness for C8 at a concrete input: a FOREIGN KEY ... REFERENCES
line before any CREATE TABLE line contributes nothing. -/
theorem fk_before_create_ignored_witness :
    containsFK (trimLine ("  FOREIGN KEY (x) REFERENCES a (y),")) = true ∧
    parseDDL (("-- hello") :: ("  FOREIGN KEY (x) REFERENCES a (y),") :: [("CREATE TABLE b (")])
      = parseDDL (("-- hello") :: [("CREATE TABLE b (")]) :=
  ⟨by decide,
    fk_before_create_ignored [("-- hello")] ("  FOREIGN KEY (x) REFERENCES a (y),")
      [("CREATE TABLE b (")] (by decide) (by decide) (by decide) (by decide)⟩

/-! ## Claim C10 -/

/-- C10: an input with no CREATE TABLE line at all succeeds: `parseDDL`
returns empty structures, `topologicalSort` returns the empty sequence
with no cycle error, and the pipeline writes an empty output. -/
theorem no_create_table_empty_success (lines : List String)
    (h : ∀ l ∈ lines, findCreate (trimLine l) = none) :
    parseDDL lines = ([], [], []) ∧ processSQL lines = some ("") := by
  have hp : parseDDL lines = ([], [], []) := by
    unfold parseDDL
    rw [fold_no_create rfl h]
    rfl
  refine ⟨hp, ?_⟩
  unfold processSQL
  rw [hp]
  rfl

/-- Witness for C10 at a concrete input. -/
theorem no_create_table_empty_success_witness :
    parseDDL [("-- script"), ("SET NAMES utf8;")] = ([], [], []) ∧
    processSQL [("-- script"), ("SET NAMES utf8;")] = some ("") :=
  no_create_table_empty_success [("-- script"), ("SET NAMES utf8;")] (by decide)

/-! ## Claim C6 -/

/-- C6: lines before the first CREATE TABLE line belong to no table
block and never appear in the written output: the block map and the
written output are the same as if they were absent, for any table
order. -/
theorem leading_lines_dropped (pre rest : List String)
    (sortedTables : List String)
    (hpre : ∀ l ∈ pre, findCreate l = none) :
    buildBlocksMap (pre ++ rest) = buildBlocksMap rest ∧
    outputDDL (pre ++ rest) sortedTables = outputDDL rest sortedTables := by
  have hb : buildBlocksMap (pre ++ rest) = buildBlocksMap rest := by
    unfold buildBlocksMap scanBlocks
    rw [List.foldl_append]
    rw [show pre.foldl blockStep initBlocks = initBlocks from
      scanBlocks_no_create rfl hpre]
  refine ⟨hb, ?_⟩
  unfold outputDDL
  rw [hb]

/-- Witness for C6 at a concrete input. -/
theorem leading_lines_dropped_witness :
    buildBlocksMap ([("SET x;"), ("CREATE TABLE a (")])
      = buildBlocksMap [("CREATE TABLE a (")] ∧
    outputDDL ([("SET x;"), ("CREATE TABLE a (")]) [("a")]
      = outputDDL [("CREATE TABLE a (")] [("a")] :=
  leading_lines_dropped [("SET x;")] [("CREATE TABLE a (")] [("a")] (by decide)


/-! ## decrementDeps characterization -/

theorem decrementDeps_cons (d : InDeg) (x : String) (rest : List String) :
    decrementDeps d (x :: rest)
      = ((decrementDeps (setA d x (getD d x - 1)) rest).1,
         if getD d x - 1 = 0 then
           x :: (decrementDeps (setA d x (getD d x - 1)) rest).2
         else (decrementDeps (setA d x (getD d x - 1)) rest).2) := by
  show (match decrementDeps (setA d x (getD d x - 1)) rest with
    | (d2, q) => if getD d x - 1 = 0 then (d2, x :: q) else (d2, q)) = _
  obtain ⟨d2, q⟩ := decrementDeps (setA d x (getD d x - 1)) rest
  by_cases hv : getD d x - 1 = 0 <;> simp [hv]

theorem getD_decrementDeps (d : InDeg) (deps : List String) (t : String) :
    getD (decrementDeps d deps).1 t = getD d t - (deps.count t : Int) := by
  induction deps generalizing d with
  | nil => simp [decrementDeps]
  | cons x rest ih =>
    rw [decrementDeps_cons]
    show getD (decrementDeps (setA d x (getD d x - 1)) rest).1 t = _
    rw [ih]
    by_cases ht : t = x
    · subst ht
      rw [getD_setA_self]
      simp [List.count_cons]
      omega
    · rw [getD_setA_ne _ _ _ _ ht]
      have hb : (x == t) = false := beq_eq_false_iff_ne.mpr (Ne.symm ht)
      simp [List.count_cons, hb]

theorem mem_decrementDeps (d : InDeg) (deps : List String) (t : String) :
    t ∈ (decrementDeps d deps).2 ↔
      1 ≤ getD d t ∧ getD d t ≤ (deps.count t : Int) := by
  induction deps generalizing d with
  | nil =>
    show t ∈ ([] : List String) ↔ _
    simp
    omega
  | cons x rest ih =>
    rw [decrementDeps_cons]
    by_cases ht : t = x
    · subst ht
      have hcnt : ((t :: rest).count t : Int) = (rest.count t : Int) + 1 := by
        simp [List.count_cons]
      have hmem := ih (setA d t (getD d t - 1))
      rw [getD_setA_self] at hmem
      rw [hcnt]
      by_cases hv : getD d t - 1 = 0
      · rw [if_pos hv]
        simp only [List.mem_cons, hmem]
        constructor
        · intro _
          omega
        · intro _
          left
          trivial
      · rw [if_neg hv, hmem]
        omega
    · have hb : (x == t) = false := beq_eq_false_iff_ne.mpr (Ne.symm ht)
      have hcnt : ((x :: rest).count t : Int) = (rest.count t : Int) := by
        simp [List.count_cons, hb]
      have hmem := ih (setA d x (getD d x - 1))
      rw [getD_setA_ne _ _ _ _ ht] at hmem
      rw [hcnt]
      by_cases hv : getD d x - 1 = 0
      · rw [if_pos hv]
        simp only [List.mem_cons, hmem]
        constructor
        · rintro (rfl | hh)
          · exact absurd rfl ht
          · exact hh
        · exact fun hh => Or.inr hh
      · rw [if_neg hv]
        exact hmem

theorem nodup_decrementDeps (d : InDeg) (deps : List String) :
    (decrementDeps d deps).2.Nodup := by
  induction deps generalizing d with
  | nil => exact List.nodup_nil
  | cons x rest ih =>
    rw [decrementDeps_cons]
    by_cases hv : getD d x - 1 = 0
    · simp only [if_pos hv]
      refine List.nodup_cons.mpr ⟨?_, ih _⟩
      intro hx
      rw [mem_decrementDeps, getD_setA_self] at hx
      omega
    · simp only [if_neg hv]
      exact ih _

theorem sumToNat_setA (d : InDeg) (k : String) (v : Int) :
    sumToNat (setA d k v) + (getD d k).toNat = sumToNat d + v.toNat := by
  induction d with
  | nil => simp [setA, sumToNat, getD, List.lookup]
  | cons e rest ih =>
    obtain ⟨ka, va⟩ := e
    by_cases hk : ka = k
    · subst hk
      simp [setA, sumToNat, getD, List.lookup]
      omega
    · have hb : (k == ka) = false := beq_eq_false_iff_ne.mpr (fun hh => hk hh.symm)
      simp only [setA, if_neg hk, sumToNat, List.map_cons, List.sum_cons,
        getD, List.lookup, hb] at ih ⊢
      omega

theorem sumToNat_decrementDeps (d : InDeg) (deps : List String) :
    sumToNat (decrementDeps d deps).1 + (decrementDeps d deps).2.length
      ≤ sumToNat d := by
  induction deps generalizing d with
  | nil =>
    show sumToNat d + 0 ≤ sumToNat d
    omega
  | cons x rest ih =>
    rw [decrementDeps_cons]
    show sumToNat (decrementDeps (setA d x (getD d x - 1)) rest).1
        + (if getD d x - 1 = 0 then
            x :: (decrementDeps (setA d x (getD d x - 1)) rest).2
          else (decrementDeps (setA d x (getD d x - 1)) rest).2).length
        ≤ sumToNat d
    have hs := sumToNat_setA d x (getD d x - 1)
    have hrec := ih (setA d x (getD d x - 1))
    by_cases hv : getD d x - 1 = 0
    · simp only [if_pos hv, List.length_cons]
      omega
    · simp only [if_neg hv]
      omega

/-! ## Fuel sufficiency for the Kahn loop -/

theorem kahnLoop_cons (fuel : Nat) (current : String) (rest : List String)
    (g : Graph) (d : InDeg) (sorted : List String) :
    kahnLoop (fuel + 1) (current :: rest) g d sorted
      = kahnLoop fuel (rest ++ (decrementDeps d (getG g current)).2) g
          (decrementDeps d (getG g current)).1 (sorted ++ [current]) := by
  show (match decrementDeps d (getG g current) with
    | (d2, newQ) => kahnLoop fuel (rest ++ newQ) g d2 (sorted ++ [current])) = _
  obtain ⟨d2, newQ⟩ := decrementDeps d (getG g current)
  rfl

theorem kahnLoop_isSome (fuel : Nat) (q : List String) (g : Graph) (d : InDeg)
    (sorted : List String) (h : q.length + sumToNat d ≤ fuel) :
    ∃ S dF, kahnLoop fuel q g d sorted = some (S, dF) := by
  induction fuel generalizing q d sorted with
  | zero =>
    cases q with
    | nil => exact ⟨sorted, d, rfl⟩
    | cons c rest => simp at h
  | succ n ih =>
    cases q with
    | nil => exact ⟨sorted, d, rfl⟩
    | cons current rest =>
      rw [kahnLoop_cons]
      apply ih
      have h1 := sumToNat_decrementDeps d (getG g current)
      simp only [List.length_append]
      simp only [List.length_cons] at h
      omega

theorem topologicalSort_run (g : Graph) (d : InDeg) :
    ∃ S dF,
      kahnLoop ((initQueue d).length + sumToNat d) (initQueue d) g d []
        = some (S, dF) ∧
      topologicalSort g d = (if S.length = g.length then some S else none) := by
  obtain ⟨S, dF, h⟩ := kahnLoop_isSome _ (initQueue d) g d [] le_rfl
  refine ⟨S, dF, h, ?_⟩
  show (match kahnLoop ((initQueue d).length + sumToNat d) (initQueue d) g d [] with
    | some (sorted, _) => if sorted.length = g.length then some sorted else none
    | none => none) = _
  rw [h]


/-! ## Edge-count bounds -/

theorem subperm_sum_le (l1 l2 : List Nat) (h : List.Subperm l1 l2) :
    l1.sum ≤ l2.sum := by
  obtain ⟨l, hperm, hsub⟩ := h
  calc l1.sum = l.sum := (hperm.sum_eq).symm
    _ ≤ l2.sum := List.Sublist.sum_le_sum hsub (fun a _ => Nat.zero_le a)

theorem subperm_map {α β : Type} (f : α → β) {l1 l2 : List α}
    (h : List.Subperm l1 l2) : List.Subperm (l1.map f) (l2.map f) := by
  obtain ⟨l, hperm, hsub⟩ := h
  exact ⟨l.map f, hperm.map f, hsub.map f⟩

theorem fromDone_append (g : Graph) (L1 L2 : List String) (t : String) :
    fromDone g (L1 ++ L2) t = fromDone g L1 t + fromDone g L2 t := by
  simp [fromDone, List.sum_append]

theorem fromDone_singleton (g : Graph) (p t : String) :
    fromDone g [p] t = (getG g p).count t := by
  simp [fromDone]

theorem countChild_eq_keys_sum (g : Graph) (t : String)
    (hnd : (keysOf g).Nodup) :
    countChild g t = ((keysOf g).map (fun k => (getG g k).count t)).sum := by
  induction g with
  | nil => rfl
  | cons e rest ih =>
    obtain ⟨k, l⟩ := e
    rw [keysOf_cons] at hnd ⊢
    have h1 : getG ((k, l) :: rest) k = l := by
      simp [getG, List.lookup]
    have h2 : ∀ k2 ∈ keysOf rest, (getG ((k, l) :: rest) k2).count t
        = (getG rest k2).count t := by
      intro k2 hk2
      have hne : k2 ≠ k := fun hh => (List.nodup_cons.mp hnd).1 (hh ▸ hk2)
      have hb : (k2 == k) = false := beq_eq_false_iff_ne.mpr hne
      simp [getG, List.lookup, hb]
    simp only [countChild, List.map_cons, List.sum_cons, h1]
    rw [List.map_congr_left h2]
    have := ih (List.nodup_cons.mp hnd).2
    simp only [countChild] at this
    rw [this]

theorem fromDone_le_countChild (g : Graph) (L : List String) (t : String)
    (hGnd : (keysOf g).Nodup) (hLnd : L.Nodup)
    (hLsub : ∀ x ∈ L, x ∈ keysOf g) :
    fromDone g L t ≤ countChild g t := by
  rw [countChild_eq_keys_sum g t hGnd]
  exact subperm_sum_le _ _ (subperm_map _ (hLnd.subperm hLsub))

theorem sum_map_filter_support (f : String → Nat) (l : List String) :
    ((l.filter (fun x => f x != 0)).map f).sum = (l.map f).sum := by
  induction l with
  | nil => rfl
  | cons x rest ih =>
    by_cases hx : f x = 0
    · have : (f x != 0) = false := by
        simp [hx]
      simp [List.filter_cons, this, ih, hx]
    · have : (f x != 0) = true := by
        simp [hx]
      simp [List.filter_cons, this, ih]

theorem countChild_le_fromDone_saturated (g : Graph) (L : List String)
    (t : String) (hGnd : (keysOf g).Nodup)
    (hsat : ∀ p, 0 < (getG g p).count t → p ∈ L) :
    countChild g t ≤ fromDone g L t := by
  rw [countChild_eq_keys_sum g t hGnd]
  set f : String → Nat := fun k => (getG g k).count t with hf
  have h1 : (((keysOf g).filter (fun x => f x != 0)).map f).sum
      = ((keysOf g).map f).sum := sum_map_filter_support f (keysOf g)
  rw [← h1]
  refine subperm_sum_le _ _ (subperm_map f ?_)
  refine List.Nodup.subperm (hGnd.filter _) ?_
  intro x hx
  have := List.of_mem_filter hx
  have hpos : 0 < f x := by
    rcases Nat.eq_zero_or_pos (f x) with h0 | h0
    · rw [h0] at this
      simp at this
    · exact h0
  exact hsat x hpos


/-! ## Kahn loop invariant preservation -/

theorem kinv_step {g : Graph} {keysD : List String}
    (hGnd : (keysOf g).Nodup)
    (hDG : ∀ t ∈ keysD, t ∈ keysOf g)
    (hChild : ∀ p c, c ∈ getG g p → c ∈ keysD)
    {current : String} {rest : List String} {d : InDeg} {sorted : List String}
    (hinv : KInv g keysD (current :: rest) d sorted) :
    KInv g keysD (rest ++ (decrementDeps d (getG g current)).2)
      (decrementDeps d (getG g current)).1 (sorted ++ [current]) := by
  obtain ⟨sortedSub, queueSub, sortedNodup, queueNodup, queueIff, degEq,
    sortedNonpos, order⟩ := hinv
  obtain ⟨hcurD, hcurNotS, hcur0⟩ := (queueIff current).mp (List.mem_cons_self _ _)
  have hsortedSub' : ∀ t ∈ sorted ++ [current], t ∈ keysD := by
    intro t ht
    rcases List.mem_append.mp ht with ht | ht
    · exact sortedSub t ht
    · rw [List.mem_singleton.mp ht]
      exact hcurD
  have hsorted'Nodup : (sorted ++ [current]).Nodup := by
    rw [List.nodup_append]
    exact ⟨sortedNodup, List.nodup_singleton current,
      fun a ha hb => hcurNotS ((List.mem_singleton.mp hb) ▸ ha)⟩
  have hsubG : ∀ x ∈ sorted ++ [current], x ∈ keysOf g :=
    fun x hx => hDG x (hsortedSub' x hx)
  have hcountBound : ∀ t, ((getG g current).count t : Int) ≤ getD d t := by
    intro t
    have hb := fromDone_le_countChild g (sorted ++ [current]) t hGnd
      hsorted'Nodup hsubG
    rw [fromDone_append, fromDone_singleton] at hb
    have hde := degEq t
    omega
  have hd'get : ∀ t, getD (decrementDeps d (getG g current)).1 t
      = getD d t - ((getG g current).count t : Int) :=
    getD_decrementDeps d (getG g current)
  have hnewQmem : ∀ t, t ∈ (decrementDeps d (getG g current)).2 ↔
      1 ≤ getD d t ∧ getD d t = ((getG g current).count t : Int) := by
    intro t
    rw [mem_decrementDeps]
    have := hcountBound t
    omega
  have hnewQD : ∀ t ∈ (decrementDeps d (getG g current)).2, t ∈ keysD := by
    intro t ht
    obtain ⟨h1, h2⟩ := (hnewQmem t).mp ht
    have hpos : 0 < (getG g current).count t := by omega
    exact hChild current t (List.count_pos_iff.mp hpos)
  have hnewQnotS : ∀ t ∈ (decrementDeps d (getG g current)).2,
      t ∉ sorted ++ [current] := by
    intro t ht hmem
    obtain ⟨h1, _⟩ := (hnewQmem t).mp ht
    rcases List.mem_append.mp hmem with hmem | hmem
    · have := sortedNonpos t hmem
      omega
    · rw [List.mem_singleton.mp hmem] at h1
      omega
  refine ⟨hsortedSub', ?_, hsorted'Nodup, ?_, ?_, ?_, ?_, ?_⟩
  · intro t ht
    rcases List.mem_append.mp ht with ht | ht
    · exact queueSub t (List.mem_cons_of_mem _ ht)
    · exact hnewQD t ht
  · rw [List.nodup_append]
    refine ⟨(List.nodup_cons.mp queueNodup).2, nodup_decrementDeps d _, ?_⟩
    intro a ha hb
    obtain ⟨h1, _⟩ := (hnewQmem a).mp hb
    have := ((queueIff a).mp (List.mem_cons_of_mem _ ha)).2.2
    omega
  · intro t
    constructor
    · intro ht
      rcases List.mem_append.mp ht with ht | ht
      · obtain ⟨htD, htS, ht0⟩ := (queueIff t).mp (List.mem_cons_of_mem _ ht)
        have htc : t ≠ current :=
          fun hh => (List.nodup_cons.mp queueNodup).1 (hh ▸ ht)
        refine ⟨htD, ?_, ?_⟩
        · intro hmem
          rcases List.mem_append.mp hmem with hmem | hmem
          · exact htS hmem
          · exact htc (List.mem_singleton.mp hmem)
        · have := hcountBound t
          have := hd'get t
          omega
      · obtain ⟨h1, h2⟩ := (hnewQmem t).mp ht
        refine ⟨hnewQD t ht, hnewQnotS t ht, ?_⟩
        have := hd'get t
        omega
    · rintro ⟨htD, htS', ht0'⟩
      rw [hd'get t] at ht0'
      by_cases hc0 : (getG g current).count t = 0
      · have ht0 : getD d t = 0 := by
          rw [hc0] at ht0'
          omega
        have htq : t ∈ current :: rest := (queueIff t).mpr
          ⟨htD, fun hh => htS' (List.mem_append_left _ hh), ht0⟩
        rcases List.mem_cons.mp htq with hh | hh
        · exact absurd (List.mem_append_right sorted
            (List.mem_singleton.mpr hh)) htS'
        · exact List.mem_append_left _ hh
      · refine List.mem_append_right _ ((hnewQmem t).mpr ?_)
        have hcpos : 0 < (getG g current).count t := Nat.pos_of_ne_zero hc0
        omega
  · intro t
    rw [hd'get t, degEq t, fromDone_append, fromDone_singleton]
    push_cast
    omega
  · intro t ht
    rw [hd'get t]
    rcases List.mem_append.mp ht with ht | ht
    · have h1 := sortedNonpos t ht
      omega
    · rw [List.mem_singleton.mp ht]
      have := hcur0
      omega
  · intro p c hedge hc'
    rcases List.mem_append.mp hc' with hcS | hcC
    · obtain ⟨hpS, hidx⟩ := order p c hedge hcS
      refine ⟨List.mem_append_left _ hpS, ?_⟩
      rw [List.indexOf_append_of_mem hpS, List.indexOf_append_of_mem hcS]
      exact hidx
    · have hc : c = current := List.mem_singleton.mp hcC
      subst hc
      have hpS : p ∈ sorted := by
        by_contra hpNotS
        have hpG : p ∈ keysOf g := mem_keysOf_of_getG_mem hedge
        have hnodup2 : (sorted ++ [p]).Nodup := by
          rw [List.nodup_append]
          exact ⟨sortedNodup, List.nodup_singleton p,
            fun a ha hb => hpNotS ((List.mem_singleton.mp hb) ▸ ha)⟩
        have hsub2 : ∀ x ∈ sorted ++ [p], x ∈ keysOf g := by
          intro x hx
          rcases List.mem_append.mp hx with hx | hx
          · exact hDG x (sortedSub x hx)
          · rw [List.mem_singleton.mp hx]
            exact hpG
        have hb := fromDone_le_countChild g (sorted ++ [p]) c hGnd hnodup2 hsub2
        rw [fromDone_append, fromDone_singleton] at hb
        have hcpos : 0 < (getG g p).count c := List.count_pos_iff.mpr hedge
        have hde := degEq c
        omega
      refine ⟨List.mem_append_left _ hpS, ?_⟩
      rw [List.indexOf_append_of_mem hpS,
        List.indexOf_append_of_not_mem hcurNotS]
      have h1 : List.indexOf c [c] = 0 := by simp
      rw [h1]
      have h2 := List.indexOf_lt_length.mpr hpS
      omega


theorem kahnLoop_inv {g : Graph} {keysD : List String}
    (hGnd : (keysOf g).Nodup)
    (hDG : ∀ t ∈ keysD, t ∈ keysOf g)
    (hChild : ∀ p c, c ∈ getG g p → c ∈ keysD) :
    ∀ (fuel : Nat) (q : List String) (d : InDeg) (sorted : List String)
      (S : List String) (dF : InDeg),
      KInv g keysD q d sorted →
      kahnLoop fuel q g d sorted = some (S, dF) →
      KInv g keysD [] dF S := by
  intro fuel
  induction fuel with
  | zero =>
    intro q d sorted S dF hinv hrun
    cases q with
    | nil =>
      simp only [kahnLoop, Option.some.injEq, Prod.mk.injEq] at hrun
      obtain ⟨h1, h2⟩ := hrun
      rw [← h1, ← h2]
      exact hinv
    | cons c rest => simp [kahnLoop] at hrun
  | succ n ih =>
    intro q d sorted S dF hinv hrun
    cases q with
    | nil =>
      simp only [kahnLoop, Option.some.injEq, Prod.mk.injEq] at hrun
      obtain ⟨h1, h2⟩ := hrun
      rw [← h1, ← h2]
      exact hinv
    | cons current rest =>
      rw [kahnLoop_cons] at hrun
      exact ih _ _ _ _ _ (kinv_step hGnd hDG hChild hinv) hrun

theorem mem_keysOf_of_mem_entry {β : Type} {m : List (String × β)}
    {e : String × β} (h : e ∈ m) : e.1 ∈ keysOf m := by
  have : (e.1, e.2) ∈ m := by
    rw [Prod.mk.eta]
    exact h
  exact mem_keysOf_of_mem this

theorem kinv_init {g : Graph} {d0 : InDeg}
    (hdeg : ∀ t, getD d0 t = (countChild g t : Int))
    (hDnd : (keysOf d0).Nodup) :
    KInv g (keysOf d0) (initQueue d0) d0 [] := by
  have hqmem : ∀ t, t ∈ initQueue d0 ↔ t ∈ keysOf d0 ∧ getD d0 t = 0 := by
    intro t
    unfold initQueue
    constructor
    · intro ht
      obtain ⟨e, he, hfe⟩ := List.mem_map.mp ht
      have hed : e ∈ d0 := List.mem_of_mem_filter he
      have he0 : e.2 = 0 := by
        have := List.of_mem_filter he
        exact of_decide_eq_true this
      have hkey : t ∈ keysOf d0 := hfe ▸ mem_keysOf_of_mem_entry hed
      refine ⟨hkey, ?_⟩
      have hlk : List.lookup e.1 d0 = some e.2 := by
        refine lookup_eq_of_mem_nodup hDnd ?_
        rw [Prod.mk.eta]
        exact hed
      rw [← hfe]
      simp [getD, hlk, he0]
    · rintro ⟨htk, ht0⟩
      have hsome := (mem_keysOf_iff d0 t).mp htk
      obtain ⟨v, hv⟩ := Option.isSome_iff_exists.mp hsome
      have hv0 : v = 0 := by
        have : getD d0 t = v := by simp [getD, hv]
        omega
      subst hv0
      have hmem : (t, (0 : Int)) ∈ d0 := mem_of_lookup_eq_some hv
      refine List.mem_map.mpr ⟨(t, (0 : Int)), ?_, rfl⟩
      refine List.mem_filter.mpr ⟨hmem, ?_⟩
      simp
  refine ⟨?_, ?_, ?_, ?_, ?_, ?_, ?_, ?_⟩
  · intro t ht
    simp at ht
  · intro t ht
    exact ((hqmem t).mp ht).1
  · exact List.nodup_nil
  · have hsub : List.Sublist (initQueue d0) (keysOf d0) :=
      (List.filter_sublist d0).map Prod.fst
    exact List.Nodup.sublist hsub hDnd
  · intro t
    rw [hqmem t]
    simp
  · intro t
    have : fromDone g [] t = 0 := rfl
    rw [this, hdeg t]
    omega
  · intro t ht
    simp at ht
  · intro p c _ hc
    simp at hc

theorem kahn_final {g : Graph} {d0 : InDeg}
    (hdeg : ∀ t, getD d0 t = (countChild g t : Int))
    (hDnd : (keysOf d0).Nodup) (hGnd : (keysOf g).Nodup)
    (hDG : ∀ t ∈ keysOf d0, t ∈ keysOf g)
    (hChild : ∀ p c, c ∈ getG g p → c ∈ keysOf d0) :
    ∃ S dF, KInv g (keysOf d0) [] dF S ∧
      topologicalSort g d0 = (if S.length = g.length then some S else none) := by
  obtain ⟨S, dF, hrun, heq⟩ := topologicalSort_run g d0
  exact ⟨S, dF,
    kahnLoop_inv hGnd hDG hChild _ _ _ _ _ _ (kinv_init hdeg hDnd) hrun, heq⟩

theorem success_covers {g : Graph} {keysD S : List String} {dF : InDeg}
    (hDG : ∀ t ∈ keysD, t ∈ keysOf g)
    (hfin : KInv g keysD [] dF S) (hlen : S.length = g.length) :
    ∀ t ∈ keysOf g, t ∈ S := by
  have hSsub : ∀ x ∈ S, x ∈ keysOf g := fun x hx => hDG x (hfin.sortedSub x hx)
  have hsp : List.Subperm S (keysOf g) := hfin.sortedNodup.subperm hSsub
  have hperm : List.Perm S (keysOf g) := by
    refine hsp.perm_of_length_le ?_
    have : (keysOf g).length = g.length := List.length_map g Prod.fst
    omega
  intro t ht
  exact hperm.mem_iff.mpr ht

theorem reaches_src_mem {g : Graph} {a b : String} (h : Reaches g a b) :
    a ∈ keysOf g := by
  induction h with
  | step hedge => exact mem_keysOf_of_getG_mem hedge
  | trans h1 h2 ih1 ih2 => exact ih1

theorem reaches_indexOf {g : Graph} {keysD S : List String} {dF : InDeg}
    (hfin : KInv g keysD [] dF S) {a b : String} (hr : Reaches g a b) :
    b ∈ S → a ∈ S ∧ S.indexOf a < S.indexOf b := by
  induction hr with
  | step hedge => exact fun hb => hfin.order _ _ hedge hb
  | trans h1 h2 ih1 ih2 =>
    intro hc
    obtain ⟨hbS, hidx2⟩ := ih2 hc
    obtain ⟨haS, hidx1⟩ := ih1 hbS
    exact ⟨haS, lt_trans hidx1 hidx2⟩

theorem cycle_of_stuck {g : Graph} {keysD S : List String} {dF : InDeg}
    (hGnd : (keysOf g).Nodup)
    (hDG : ∀ t ∈ keysD, t ∈ keysOf g)
    (hNoDangling : ∀ t ∈ keysOf g, t ∈ keysD)
    (hfin : KInv g keysD [] dF S)
    (hmissing : ∃ t, t ∈ keysD ∧ t ∉ S) :
    HasCycle g := by
  classical
  obtain ⟨u0, hu0D, hu0S⟩ := hmissing
  have hstep : ∀ u, u ∈ keysD → u ∉ S →
      ∃ p, (p ∈ keysD ∧ p ∉ S) ∧ u ∈ getG g p := by
    intro u huD huS
    have hne : getD dF u ≠ 0 := by
      intro h0
      exact List.not_mem_nil u ((hfin.queueIff u).mpr ⟨huD, huS, h0⟩)
    have hdeg := hfin.degEq u
    have hSsub : ∀ x ∈ S, x ∈ keysOf g := fun x hx => hDG x (hfin.sortedSub x hx)
    have hge : fromDone g S u ≤ countChild g u :=
      fromDone_le_countChild g S u hGnd hfin.sortedNodup hSsub
    have hnsat : ¬(∀ p, 0 < (getG g p).count u → p ∈ S) := by
      intro hsat
      have := countChild_le_fromDone_saturated g S u hGnd hsat
      omega
    push_neg at hnsat
    obtain ⟨p, hpcount, hpS⟩ := hnsat
    have hedge : u ∈ getG g p := List.count_pos_iff.mp hpcount
    have hpG : p ∈ keysOf g := mem_keysOf_of_getG_mem hedge
    exact ⟨p, ⟨hNoDangling p hpG, hpS⟩, hedge⟩
  let T := {u : String // u ∈ keysD ∧ u ∉ S}
  let stepf : T → T := fun u =>
    ⟨(hstep u.1 u.2.1 u.2.2).choose, (hstep u.1 u.2.1 u.2.2).choose_spec.1⟩
  let f : Nat → T := fun n => stepf^[n] ⟨u0, hu0D, hu0S⟩
  have hedgef : ∀ n, (f n).1 ∈ getG g ((f (n + 1)).1) := by
    intro n
    have hsucc : f (n + 1) = stepf (f n) := Function.iterate_succ_apply' stepf n _
    rw [hsucc]
    exact (hstep (f n).1 (f n).2.1 (f n).2.2).choose_spec.2
  have hchain : ∀ i k, Reaches g ((f (i + k + 1)).1) ((f i).1) := by
    intro i k
    induction k with
    | zero => exact Reaches.step (hedgef i)
    | succ m ih =>
      have hidx : i + (m + 1) + 1 = (i + m + 1) + 1 := by omega
      rw [hidx]
      exact Reaches.trans (Reaches.step (hedgef (i + m + 1))) ih
  have hcard : Fintype.card {x // x ∈ keysD.toFinset}
      < Fintype.card (Fin (keysD.length + 1)) := by
    rw [Fintype.card_coe, Fintype.card_fin]
    exact Nat.lt_succ_of_le (List.toFinset_card_le keysD)
  obtain ⟨i, j, hne, heq⟩ := Fintype.exists_ne_map_eq_of_card_lt
    (fun i : Fin (keysD.length + 1) =>
      (⟨(f i.val).1, List.mem_toFinset.mpr (f i.val).2.1⟩ :
        {x // x ∈ keysD.toFinset})) hcard
  have hval : (f i.val).1 = (f j.val).1 := Subtype.mk_eq_mk.mp heq
  have hij : i.val ≠ j.val := fun hh => hne (Fin.ext hh)
  rcases Nat.lt_or_ge i.val j.val with hlt | hge
  · obtain ⟨k, hk⟩ : ∃ k, j.val = i.val + k + 1 := ⟨j.val - i.val - 1, by omega⟩
    refine ⟨(f j.val).1, ?_⟩
    have hr := hchain i.val k
    rw [← hk] at hr
    rw [hval] at hr
    exact hr
  · have hlt2 : j.val < i.val := by omega
    obtain ⟨k, hk⟩ : ∃ k, i.val = j.val + k + 1 := ⟨i.val - j.val - 1, by omega⟩
    refine ⟨(f i.val).1, ?_⟩
    have hr := hchain j.val k
    rw [← hk] at hr
    rw [← hval] at hr
    exact hr


/-! ## parseDDL wellformedness packaged for the sorter -/

theorem parse_kahn_final (lines : List String) :
    ∃ S dF, KInv (parseDDL lines).1 (keysOf (parseDDL lines).2.1) [] dF S ∧
      topologicalSort (parseDDL lines).1 (parseDDL lines).2.1
        = (if S.length = (parseDDL lines).1.length then some S else none) := by
  have inv := parseInv_parseDDL lines
  exact kahn_final inv.degCount inv.nodupD inv.nodupG inv.dSubG inv.childMem

theorem mem_keysD_iff_created (lines : List String) (t : String) :
    t ∈ keysOf (parseDDL lines).2.1 ↔
      ∃ l ∈ lines, findCreate (trimLine l) = some t := by
  have inv := parseInv_parseDDL lines
  have h1 := inv.dCreated t
  have h2 := fold_tableOrder lines initParse
  have h3 : (lines.foldl parseLine initParse).tableOrder
      = lines.filterMap (fun l => findCreate (trimLine l)) := by
    rw [h2]
    rfl
  have h4 : t ∈ keysOf (parseDDL lines).2.1 ↔
      t ∈ (lines.foldl parseLine initParse).tableOrder := h1
  rw [h4, h3, List.mem_filterMap]

/-! ## Claim C7 -/

/-- C7: for every graph and in-degree map produced by `parseDDL`, a
sequence returned by `topologicalSort` contains no duplicate table
identifiers. -/
theorem sort_result_nodup (lines : List String) (L : List String)
    (hsort : topologicalSort (parseDDL lines).1 (parseDDL lines).2.1 = some L) :
    L.Nodup := by
  obtain ⟨S, dF, hfin, heq⟩ := parse_kahn_final lines
  rw [heq] at hsort
  by_cases hl : S.length = (parseDDL lines).1.length
  · rw [if_pos hl] at hsort
    rw [← Option.some.inj hsort]
    exact hfin.sortedNodup
  · rw [if_neg hl] at hsort
    simp at hsort

/-- Witness for C7 at a concrete input. -/
theorem sort_result_nodup_witness :
    topologicalSort
        (parseDDL [("CREATE TABLE a ("), (")"),
          ("CREATE TABLE b ("), ("  FOREIGN KEY (x) REFERENCES a (id),"), (")")]).1
        (parseDDL [("CREATE TABLE a ("), (")"),
          ("CREATE TABLE b ("), ("  FOREIGN KEY (x) REFERENCES a (id),"), (")")]).2.1
      = some [("a"), ("b")] ∧ List.Nodup [("a"), ("b")] :=
  ⟨by decide,
    sort_result_nodup [("CREATE TABLE a ("), (")"),
      ("CREATE TABLE b ("), ("  FOREIGN KEY (x) REFERENCES a (id),"), (")")]
      [("a"), ("b")] (by decide)⟩

/-! ## Claim C1 -/

/-- C1: whenever `topologicalSort` returns a sequence on the graph
extracted by `parseDDL` (in particular for every acyclic input on which
it succeeds), that sequence is a topological order: for every recorded
edge parent → child, the parent's index strictly precedes the child's
index. -/
theorem sorter_output_is_topological (lines : List String) (L : List String)
    (hsort : topologicalSort (parseDDL lines).1 (parseDDL lines).2.1 = some L)
    (p c : String) (hedge : c ∈ getG (parseDDL lines).1 p) :
    p ∈ L ∧ c ∈ L ∧ L.indexOf p < L.indexOf c := by
  have inv := parseInv_parseDDL lines
  obtain ⟨S, dF, hfin, heq⟩ := parse_kahn_final lines
  rw [heq] at hsort
  by_cases hl : S.length = (parseDDL lines).1.length
  · rw [if_pos hl] at hsort
    obtain rfl : S = L := Option.some.inj hsort
    have hcD : c ∈ keysOf (parseDDL lines).2.1 := inv.childMem p c hedge
    have hcG : c ∈ keysOf (parseDDL lines).1 := inv.dSubG c hcD
    have hcS : c ∈ S := success_covers inv.dSubG hfin hl c hcG
    obtain ⟨hpS, hidx⟩ := hfin.order p c hedge hcS
    exact ⟨hpS, hcS, hidx⟩
  · rw [if_neg hl] at hsort
    simp at hsort

/-- Witness for C1 at a concrete input: `orders` references `customers`,
and `customers` indeed precedes `orders` in the output order. -/
theorem sorter_output_is_topological_witness :
    topologicalSort
        (parseDDL [("CREATE TABLE orders ("),
          ("  FOREIGN KEY (cid) REFERENCES customers (id),"), (")"),
          ("CREATE TABLE customers ("), (")")]).1
        (parseDDL [("CREATE TABLE orders ("),
          ("  FOREIGN KEY (cid) REFERENCES customers (id),"), (")"),
          ("CREATE TABLE customers ("), (")")]).2.1
      = some [("customers"), ("orders")] ∧
    ("orders") ∈ getG (parseDDL [("CREATE TABLE orders ("),
          ("  FOREIGN KEY (cid) REFERENCES customers (id),"), (")"),
          ("CREATE TABLE customers ("), (")")]).1 ("customers") ∧
    List.indexOf ("customers") [("customers"), ("orders")]
      < List.indexOf ("orders") [("customers"), ("orders")] :=
  ⟨by decide, by decide,
    (sorter_output_is_topological [("CREATE TABLE orders ("),
      ("  FOREIGN KEY (cid) REFERENCES customers (id),"), (")"),
      ("CREATE TABLE customers ("), (")")]
      [("customers"), ("orders")] (by decide)
      ("customers") ("orders") (by decide)).2.2⟩

/-! ## Claim C9 -/

/-- C9: if some accepted foreign-key reference names a table that no
CREATE TABLE line of the input creates, the pipeline aborts with the
cyclic-dependency error (no output), regardless of acyclicity: the
uncreated parent has a graph entry but no in-degree entry and can never
be scheduled. -/
theorem uncreated_parent_aborts (lines : List String) (p : String)
    (hpG : p ∈ keysOf (parseDDL lines).1)
    (hnc : ∀ l ∈ lines, findCreate (trimLine l) ≠ some p) :
    processSQL lines = none := by
  have inv := parseInv_parseDDL lines
  have hpD : p ∉ keysOf (parseDDL lines).2.1 := by
    rw [mem_keysD_iff_created]
    rintro ⟨l, hl, hc⟩
    exact hnc l hl hc
  obtain ⟨S, dF, hfin, heq⟩ := parse_kahn_final lines
  have hnone : topologicalSort (parseDDL lines).1 (parseDDL lines).2.1 = none := by
    rw [heq]
    by_cases hl : S.length = (parseDDL lines).1.length
    · exact absurd (hfin.sortedSub p (success_covers inv.dSubG hfin hl p hpG)) hpD
    · rw [if_neg hl]
  show (topologicalSort (parseDDL lines).1 (parseDDL lines).2.1).map
    (fun sortedTables => outputDDL lines sortedTables) = none
  rw [hnone]
  rfl

/-- Witness for C9 at a concrete input: table `b` references `a`, which
is never created; the relation is acyclic yet the pipeline aborts. -/
theorem uncreated_parent_aborts_witness :
    ("a") ∈ keysOf (parseDDL [("CREATE TABLE b ("),
        ("  FOREIGN KEY (x) REFERENCES a (y)"), (")")]).1 ∧
    processSQL [("CREATE TABLE b ("),
        ("  FOREIGN KEY (x) REFERENCES a (y)"), (")")] = none :=
  ⟨by decide,
    uncreated_parent_aborts [("CREATE TABLE b ("),
      ("  FOREIGN KEY (x) REFERENCES a (y)"), (")")] ("a")
      (by decide) (by decide)⟩


/-! ## Claim C2 -/

/-- C2, counterexample to the claim as stated: on this input the
dependency graph is acyclic (its only edge is a → b), yet
`topologicalSort` fails with the cyclic-dependency error, because the
referenced parent `a` is never created.  So "fails iff the graph has a
directed cycle" is false. -/
theorem sort_failure_without_cycle :
    topologicalSort
        (parseDDL [("CREATE TABLE b ("),
          ("  FOREIGN KEY (x) REFERENCES a (y)"), (")")]).1
        (parseDDL [("CREATE TABLE b ("),
          ("  FOREIGN KEY (x) REFERENCES a (y)"), (")")]).2.1 = none ∧
    ¬ HasCycle (parseDDL [("CREATE TABLE b ("),
          ("  FOREIGN KEY (x) REFERENCES a (y)"), (")")]).1 := by
  have hg : (parseDDL [("CREATE TABLE b ("),
      ("  FOREIGN KEY (x) REFERENCES a (y)"), (")")]).1
      = [(("b"), []), (("a"), [("b")])] := by decide
  refine ⟨by decide, ?_⟩
  rw [hg]
  have hedge : ∀ p c, c ∈ getG [(("b"), []), (("a"), [("b")])] p →
      p = ("a") ∧ c = ("b") := by
    intro p c h
    by_cases hpa : p = ("a")
    · subst hpa
      have hga : getG [(("b"), []), (("a"), [("b")])] ("a") = [("b")] := by decide
      rw [hga] at h
      exact ⟨rfl, List.mem_singleton.mp h⟩
    · by_cases hpb : p = ("b")
      · subst hpb
        have hgb : getG [(("b"), []), (("a"), [("b")])] ("b") = [] := by decide
        rw [hgb] at h
        simp at h
      · have h1 : (p == ("b")) = false := beq_eq_false_iff_ne.mpr hpb
        have h2 : (p == ("a")) = false := beq_eq_false_iff_ne.mpr hpa
        have hnone : List.lookup p [(("b"), []), (("a"), [("b")])] = none := by
          simp [List.lookup, h1, h2]
        have : getG [(("b"), []), (("a"), [("b")])] p = [] := by
          simp [getG, hnone]
        rw [this] at h
        simp at h
  have hre : ∀ x y, Reaches [(("b"), []), (("a"), [("b")])] x y →
      x = ("a") ∧ y = ("b") := by
    intro x y hr
    induction hr with
    | step he => exact hedge _ _ he
    | trans h1 h2 ih1 ih2 => exact ⟨ih1.1, ih2.2⟩
  rintro ⟨t, hr⟩
  obtain ⟨h1, h2⟩ := hre t t hr
  rw [h1] at h2
  exact absurd h2 (by decide)

/-- C2 amended: on the graph and in-degree map produced by `parseDDL`,
`topologicalSort` fails (the sorted sequence is shorter than the number
of graph entries) if and only if the graph contains a directed cycle or
contains an entry for a table that was never created (a referenced
parent with no in-degree entry).  In particular a cycle always causes
failure, but failure does not imply a cycle. -/
theorem sort_fails_iff_cycle_or_uncreated (lines : List String) :
    topologicalSort (parseDDL lines).1 (parseDDL lines).2.1 = none ↔
      (HasCycle (parseDDL lines).1 ∨
        ∃ t, t ∈ keysOf (parseDDL lines).1 ∧
          t ∉ keysOf (parseDDL lines).2.1) := by
  have inv := parseInv_parseDDL lines
  obtain ⟨S, dF, hfin, heq⟩ := parse_kahn_final lines
  constructor
  · intro hnone
    rw [heq] at hnone
    by_cases hl : S.length = (parseDDL lines).1.length
    · rw [if_pos hl] at hnone
      simp at hnone
    · by_cases hd : ∃ t, t ∈ keysOf (parseDDL lines).1 ∧
          t ∉ keysOf (parseDDL lines).2.1
      · exact Or.inr hd
      · push_neg at hd
        refine Or.inl (cycle_of_stuck inv.nodupG inv.dSubG hd hfin ?_)
        by_contra hnm
        push_neg at hnm
        have hDsubS : List.Subperm (keysOf (parseDDL lines).2.1) S :=
          inv.nodupD.subperm hnm
        have hSsubD : List.Subperm S (keysOf (parseDDL lines).2.1) :=
          hfin.sortedNodup.subperm hfin.sortedSub
        have hGsubD : List.Subperm (keysOf (parseDDL lines).1)
            (keysOf (parseDDL lines).2.1) :=
          inv.nodupG.subperm hd
        have hDsubG : List.Subperm (keysOf (parseDDL lines).2.1)
            (keysOf (parseDDL lines).1) :=
          inv.nodupD.subperm inv.dSubG
        have h1 := hDsubS.length_le
        have h2 := hSsubD.length_le
        have h3 := hGsubD.length_le
        have h4 := hDsubG.length_le
        have h5 : (keysOf (parseDDL lines).1).length
            = (parseDDL lines).1.length := List.length_map _ _
        omega
  · intro h
    rw [heq]
    by_cases hl : S.length = (parseDDL lines).1.length
    · exfalso
      have hcov := success_covers inv.dSubG hfin hl
      rcases h with hcyc | ⟨t, htG, htD⟩
      · obtain ⟨t, hr⟩ := hcyc
        have htS : t ∈ S := hcov t (reaches_src_mem hr)
        obtain ⟨_, hidx⟩ := reaches_indexOf hfin hr htS
        exact lt_irrefl _ hidx
      · exact htD (hfin.sortedSub t (hcov t htG))
    · rw [if_neg hl]


/-! ## The DDL reassembler: block lemmas -/

theorem str_append_empty (s : String) : s ++ ("") = s := by
  cases s with
  | mk data =>
    show String.mk (data ++ []) = String.mk data
    rw [List.append_nil]

theorem str_append_assoc (a b c : String) : a ++ b ++ c = a ++ (b ++ c) := by
  cases a with
  | mk da =>
    cases b with
    | mk db =>
      cases c with
      | mk dc =>
        show String.mk (da ++ db ++ dc) = String.mk (da ++ (db ++ dc))
        rw [List.append_assoc]

theorem joinNL_cons (l : String) (rest : List String) :
    joinNL (l :: rest) = l ++ "\n" ++ joinNL rest := rfl

theorem captureAt_ne_empty {kw s : List Char} {n : String}
    (h : captureAt kw s = some n) : n ≠ ("") := by
  unfold captureAt at h
  split at h
  · exact absurd h (by simp)
  · split at h
    · exact absurd h (by simp)
    · rename_i rest hw
      intro hcon
      have hn := Option.some.inj h
      rw [hcon] at hn
      exact hw (congrArg String.data hn)

theorem findCapture_ne_empty {kw : List Char} {s : List Char} {n : String}
    (h : findCapture kw s = some n) : n ≠ ("") := by
  induction s with
  | nil => simp [findCapture] at h
  | cons c cs ih =>
    unfold findCapture at h
    cases hc : captureAt kw (c :: cs) with
    | some w =>
      rw [hc] at h
      rw [← Option.some.inj h]
      exact captureAt_ne_empty hc
    | none =>
      rw [hc] at h
      exact ih h

theorem findCreate_ne_empty {s : String} {n : String}
    (h : findCreate s = some n) : n ≠ ("") := findCapture_ne_empty h

theorem scanBlocks_append (xs ys : List String) (st : BlockState) :
    scanBlocks (xs ++ ys) st = scanBlocks ys (scanBlocks xs st) := by
  simp [scanBlocks, List.foldl_append]

theorem scanBlocks_acc_inv (lines : List String) (st : BlockState)
    (h : st.currentTable = "" → st.acc = "") :
    (scanBlocks lines st).currentTable = "" → (scanBlocks lines st).acc = "" := by
  induction lines generalizing st with
  | nil => exact h
  | cons l rest ih =>
    show (scanBlocks rest (blockStep st l)).currentTable = "" → _
    refine ih (blockStep st l) ?_
    unfold blockStep blockCreateStep blockAppendStep
    cases hc : findCreate l with
    | some name =>
      have hn : name ≠ "" := findCreate_ne_empty hc
      by_cases hcur : st.currentTable ≠ "" <;> simp [hcur, hn]
    | none =>
      by_cases hcur : st.currentTable ≠ ""
      · simp only [if_pos hcur]
        intro h0
        exact absurd h0 hcur
      · simp only [if_neg hcur]
        exact h

theorem blockStep_create {st : BlockState} {l name : String}
    (hc : findCreate l = some name)
    (hacc : st.currentTable = "" → st.acc = "") :
    blockStep st l =
      ⟨if st.currentTable ≠ "" then setA st.content st.currentTable st.acc
        else st.content, name, l ++ "\n"⟩ := by
  have hn : name ≠ "" := findCreate_ne_empty hc
  unfold blockStep blockCreateStep blockAppendStep
  simp only [hc]
  by_cases hcur : st.currentTable ≠ ""
  · simp only [if_pos hcur]
    rw [if_pos (show name ≠ "" from hn)]
    rfl
  · simp only [if_neg hcur]
    rw [if_pos (show name ≠ "" from hn)]
    push_neg at hcur
    rw [hacc hcur]
    rfl

theorem blockStep_no_create_eq {st : BlockState} {l : String}
    (hc : findCreate l = none) :
    blockStep st l =
      (if st.currentTable ≠ "" then { st with acc := st.acc ++ l ++ "\n" }
       else st) := by
  unfold blockStep blockCreateStep blockAppendStep
  rw [hc]

theorem scanBlocks_body {body : List String} {st : BlockState}
    (hnc : ∀ b ∈ body, findCreate b = none) (hcur : st.currentTable ≠ "") :
    scanBlocks body st = ⟨st.content, st.currentTable, st.acc ++ joinNL body⟩ := by
  induction body generalizing st with
  | nil =>
    show st = _
    rw [show joinNL [] = ("") from rfl, str_append_empty]
  | cons b rest ih =>
    show scanBlocks rest (blockStep st b) = _
    rw [blockStep_no_create_eq (hnc b (List.mem_cons_self b rest)), if_pos hcur]
    rw [@ih ⟨st.content, st.currentTable, st.acc ++ b ++ "\n"⟩
      (fun x hx => hnc x (List.mem_cons_of_mem _ hx)) hcur]
    rw [joinNL_cons]
    rw [str_append_assoc st.acc b ("\n"), str_append_assoc]

theorem scanBlocks_preserves {ls : List String} {st : BlockState} {name : String}
    (hnc : ∀ x ∈ ls, ∀ m, findCreate x = some m → m ≠ name)
    (hcur : st.currentTable ≠ name) :
    (scanBlocks ls st).currentTable ≠ name ∧
    List.lookup name (scanBlocks ls st).content = List.lookup name st.content := by
  induction ls generalizing st with
  | nil => exact ⟨hcur, rfl⟩
  | cons x rest ih =>
    have hrest : ∀ y ∈ rest, ∀ m, findCreate y = some m → m ≠ name :=
      fun y hy => hnc y (List.mem_cons_of_mem _ hy)
    show (scanBlocks rest (blockStep st x)).currentTable ≠ name ∧
      List.lookup name (scanBlocks rest (blockStep st x)).content = _
    cases hc : findCreate x with
    | none =>
      rw [blockStep_no_create_eq hc]
      by_cases h : st.currentTable ≠ ""
      · rw [if_pos h]
        exact ih hrest hcur
      · rw [if_neg h]
        exact ih hrest hcur
    | some m =>
      have hm : m ≠ name := hnc x (List.mem_cons_self x rest) m hc
      have hstep : blockStep st x =
          ⟨if st.currentTable ≠ "" then setA st.content st.currentTable st.acc
            else st.content, m, (if st.currentTable ≠ "" then ("" : String)
              else st.acc) ++ x ++ "\n"⟩ := by
        have hn : m ≠ "" := findCreate_ne_empty hc
        unfold blockStep blockCreateStep blockAppendStep
        simp only [hc]
        by_cases h : st.currentTable ≠ ""
        · simp only [if_pos h]
          rw [if_pos (show m ≠ "" from hn)]
        · simp only [if_neg h]
          rw [if_pos (show m ≠ "" from hn)]
      rw [hstep]
      by_cases h : st.currentTable ≠ ""
      · simp only [if_pos h]
        obtain ⟨h1, h2⟩ := @ih ⟨setA st.content st.currentTable st.acc, m,
          ("" : String) ++ x ++ "\n"⟩ hrest hm
        refine ⟨h1, h2.trans ?_⟩
        exact lookup_setA_ne _ _ _ _ (fun hh => hcur hh.symm)
      · simp only [if_neg h]
        exact @ih ⟨st.content, m, st.acc ++ x ++ "\n"⟩ hrest hm

theorem lookup_finalize_ne {st : BlockState} {name : String}
    (h : st.currentTable ≠ name) :
    List.lookup name (finalizeBlocks st) = List.lookup name st.content := by
  unfold finalizeBlocks
  by_cases hcur : st.currentTable ≠ ""
  · rw [if_pos hcur]
    exact lookup_setA_ne _ _ _ _ (fun hh => h hh.symm)
  · rw [if_neg hcur]


/-! ## Claim C3 -/

/-- Core lemma for the reassembler: the block stored under `name` is the
verbatim text of its segment. -/
theorem lookup_block_segment (pre : List String) (l : String)
    (body rest : List String) (name : String)
    (hc : findCreate l = some name)
    (hbody : ∀ b ∈ body, findCreate b = none)
    (hnext : ∀ r, rest.head? = some r → findCreate r ≠ none)
    (hlater : ∀ r ∈ rest, ∀ m, findCreate r = some m → m ≠ name) :
    List.lookup name (buildBlocksMap (pre ++ l :: body ++ rest))
      = some (joinNL (l :: body)) := by
  have hn : name ≠ "" := findCreate_ne_empty hc
  unfold buildBlocksMap
  have hsplit : pre ++ l :: body ++ rest = (((pre ++ [l]) ++ body) ++ rest) := by
    simp
  have hacc0 : (scanBlocks pre initBlocks).currentTable = "" →
      (scanBlocks pre initBlocks).acc = "" :=
    scanBlocks_acc_inv pre initBlocks (fun _ => rfl)
  obtain ⟨C1v, e2⟩ : ∃ C1v, blockStep (scanBlocks pre initBlocks) l
      = ⟨C1v, name, l ++ "\n"⟩ := ⟨_, blockStep_create hc hacc0⟩
  have e1 : scanBlocks (pre ++ l :: body ++ rest) initBlocks
      = scanBlocks rest (scanBlocks body (⟨C1v, name, l ++ "\n"⟩ : BlockState)) := by
    rw [hsplit, scanBlocks_append, scanBlocks_append, scanBlocks_append, ← e2]
    rfl
  have e3 : scanBlocks body (⟨C1v, name, l ++ "\n"⟩ : BlockState)
      = ⟨C1v, name, joinNL (l :: body)⟩ := by
    rw [@scanBlocks_body body ⟨C1v, name, l ++ "\n"⟩ hbody hn, joinNL_cons]
  rw [e1, e3]
  cases rest with
  | nil =>
    show List.lookup name
      (finalizeBlocks ⟨C1v, name, joinNL (l :: body)⟩) = _
    unfold finalizeBlocks
    rw [if_pos (show name ≠ "" from hn)]
    exact lookup_setA_self _ _ _
  | cons r rs =>
    have hrne : findCreate r ≠ none := hnext r rfl
    obtain ⟨m, hm⟩ : ∃ m, findCreate r = some m := by
      cases hfr : findCreate r with
      | none => exact absurd hfr hrne
      | some m => exact ⟨m, rfl⟩
    have hmname : m ≠ name := hlater r (List.mem_cons_self r rs) m hm
    have e5 : blockStep (⟨C1v, name, joinNL (l :: body)⟩ : BlockState) r
        = ⟨setA C1v name (joinNL (l :: body)), m, r ++ "\n"⟩ := by
      rw [@blockStep_create ⟨C1v, name, joinNL (l :: body)⟩ r m hm
        (fun h0 => absurd h0 hn)]
      rw [if_pos (show name ≠ ("") from hn)]
    have e4 : scanBlocks (r :: rs) (⟨C1v, name, joinNL (l :: body)⟩ : BlockState)
        = scanBlocks rs (⟨setA C1v name (joinNL (l :: body)), m,
            r ++ "\n"⟩ : BlockState) := by
      rw [show scanBlocks (r :: rs) (⟨C1v, name, joinNL (l :: body)⟩ : BlockState)
          = scanBlocks rs (blockStep ⟨C1v, name, joinNL (l :: body)⟩ r) from rfl, e5]
    rw [e4]
    obtain ⟨hfc, hfl⟩ := @scanBlocks_preserves rs
      ⟨setA C1v name (joinNL (l :: body)), m, r ++ "\n"⟩ name
      (fun y hy => hlater y (List.mem_cons_of_mem _ hy)) hmname
    rw [lookup_finalize_ne hfc, hfl]
    exact lookup_setA_self _ _ _

/-- C3: the block that `reorderDDL` associates with a table is exactly
the verbatim source lines from its CREATE TABLE line up to (but not
including) the next CREATE TABLE line or end of file, in order, each
line followed by a newline.  `body` is the (CREATE-free) remainder of
the block, `rest` is empty or starts at the next CREATE TABLE line, and
no later CREATE TABLE line reuses `name` (which would overwrite the
map entry). -/
theorem block_is_verbatim_segment (pre : List String) (l : String)
    (body rest : List String) (name : String)
    (hc : findCreate l = some name)
    (hbody : ∀ b ∈ body, findCreate b = none)
    (hnext : ∀ r, rest.head? = some r → findCreate r ≠ none)
    (hlater : ∀ r ∈ rest, ∀ m, findCreate r = some m → m ≠ name) :
    List.lookup name (buildBlocksMap (pre ++ l :: body ++ rest))
      = some (joinNL (l :: body)) :=
  lookup_block_segment pre l body rest name hc hbody hnext hlater

/-- Witness for C3 at a concrete input. -/
theorem block_is_verbatim_segment_witness :
    findCreate ("CREATE TABLE a (") = some ("a") ∧
    List.lookup ("a") (buildBlocksMap ([("-- x")] ++ ("CREATE TABLE a (") ::
        [("  c INT"), (");")] ++ [("CREATE TABLE b (")]))
      = some ("CREATE TABLE a (\n  c INT\n);\n") :=
  ⟨by decide,
    block_is_verbatim_segment [("-- x")] ("CREATE TABLE a (")
      [("  c INT"), (");")] [("CREATE TABLE b (")] ("a")
      (by decide) (by decide)
      (by
        intro r hr
        cases hr
        decide)
      (by
        intro r hr m hm
        have hreq : r = ("CREATE TABLE b (") := List.mem_singleton.mp hr
        subst hreq
        have hfb : findCreate ("CREATE TABLE b (") = some ("b") := by decide
        rw [hfb] at hm
        have := Option.some.inj hm
        rw [← this]
        decide)⟩


/-! ## Segmented inputs and the round trip -/

theorem str_empty_append (s : String) : ("") ++ s = s := by
  cases s with
  | mk data =>
    show String.mk ([] ++ data) = String.mk data
    rw [List.nil_append]

theorem strConcat_append (A B : List String) :
    strConcat (A ++ B) = strConcat A ++ strConcat B := by
  induction A with
  | nil =>
    show strConcat B = ("") ++ strConcat B
    rw [str_empty_append]
  | cons a A' ih =>
    show a ++ strConcat (A' ++ B) = (a ++ strConcat A') ++ strConcat B
    rw [ih, str_append_assoc]

theorem joinNL_append (xs ys : List String) :
    joinNL (xs ++ ys) = joinNL xs ++ joinNL ys := by
  unfold joinNL
  rw [List.map_append, strConcat_append]

theorem segmented_creates {rest : List String}
    {segs : List (String × List String)} (hseg : Segmented rest segs) :
    ∀ x ∈ rest, ∀ m, findCreate x = some m → m ∈ segs.map Prod.fst := by
  induction hseg with
  | nil => intro x hx; simp at hx
  | block hc hbody hrest ih =>
    rename_i l name body rest' segs'
    intro x hx m hm
    rcases List.mem_cons.mp hx with rfl | hx
    · rw [hc] at hm
      rw [← Option.some.inj hm]
      exact List.mem_cons_self _ _
    · rcases List.mem_append.mp hx with hx | hx
      · rw [hbody x hx] at hm
        exact absurd hm (by simp)
      · exact List.mem_cons_of_mem _ (ih x hx m hm)

theorem segmented_head {rest : List String}
    {segs : List (String × List String)} (hseg : Segmented rest segs) :
    ∀ r, rest.head? = some r → findCreate r ≠ none := by
  cases hseg with
  | nil => intro r hr; simp at hr
  | block hc hbody hrest =>
    intro r hr
    have : r = _ := (Option.some.inj hr).symm
    rw [← this] at hc
    rw [hc]
    simp

theorem joinNL_of_segs {rest : List String}
    {segs : List (String × List String)} (hseg : Segmented rest segs) :
    strConcat (segs.map (fun e => joinNL e.2)) = joinNL rest := by
  induction hseg with
  | nil => rfl
  | block hc hbody hrest ih =>
    rename_i l name body rest' segs'
    show joinNL (l :: body) ++ strConcat (segs'.map (fun e => joinNL e.2))
      = joinNL (l :: body ++ rest')
    rw [ih]
    rw [show l :: body ++ rest' = (l :: body) ++ rest' from rfl, joinNL_append]

theorem map_lookup_segs :
    ∀ (segs : List (String × List String)) (rest : List String)
      (pre : List String), Segmented rest segs →
      (segs.map Prod.fst).Nodup →
      (segs.map Prod.fst).map
          (fun t => List.lookup t (buildBlocksMap (pre ++ rest)))
        = segs.map (fun e => some (joinNL e.2)) := by
  intro segs rest pre hseg
  induction hseg generalizing pre with
  | nil => intro _; rfl
  | block hc hbody hrest ih =>
    rename_i l name body rest' segs'
    intro hnd
    rw [List.map_cons, List.map_cons, List.map_cons]
    have hnotin : name ∉ segs'.map Prod.fst := by
      rw [List.map_cons] at hnd
      exact (List.nodup_cons.mp hnd).1
    have h1 : List.lookup name (buildBlocksMap (pre ++ (l :: body ++ rest')))
        = some (joinNL (l :: body)) := by
      rw [show pre ++ (l :: body ++ rest') = (pre ++ (l :: body)) ++ rest' from
        (List.append_assoc pre (l :: body) rest').symm]
      refine lookup_block_segment pre l body rest' name hc hbody
        (segmented_head hrest) ?_
      intro r hr m hm hmn
      rw [hmn] at hm
      exact hnotin (segmented_creates hrest r hr name hm)
    rw [h1]
    have h2 : pre ++ (l :: body ++ rest') = (pre ++ (l :: body)) ++ rest' := by
      simp
    rw [h2]
    rw [ih (pre ++ (l :: body)) (List.nodup_cons.mp (List.map_cons Prod.fst _ _ ▸ hnd)).2]

theorem filterMap_of_map_some {f : String → Option String}
    {l : List String} {vs : List String}
    (h : l.map f = vs.map some) : l.filterMap f = vs := by
  induction l generalizing vs with
  | nil =>
    cases vs with
    | nil => rfl
    | cons v vs' => simp at h
  | cons x l' ih =>
    cases vs with
    | nil => simp at h
    | cons v vs' =>
      rw [List.map_cons, List.map_cons] at h
      obtain ⟨h1, h2⟩ := List.cons.inj h
      rw [List.filterMap_cons, h1]
      rw [ih h2]


/-! ## Claim C4 -/

/-- C4, counterexample to the claim as stated: this input's blocks
already satisfy the foreign-key dependency order (the only edge is
a → b and `a`'s block precedes `b`'s), yet the pipeline's output is not
block-for-block identical to the input: the sorter schedules `c` before
`b`, because the queue is seeded with all in-degree-0 tables before any
dependent becomes ready. -/
theorem roundtrip_fails_on_ordered_input :
    (∀ p ∈ keysOf (parseDDL [("CREATE TABLE a (id INT);"),
        ("CREATE TABLE b (FOREIGN KEY (x) REFERENCES a (id));"),
        ("CREATE TABLE c (id INT);")]).1,
      ∀ c ∈ getG (parseDDL [("CREATE TABLE a (id INT);"),
        ("CREATE TABLE b (FOREIGN KEY (x) REFERENCES a (id));"),
        ("CREATE TABLE c (id INT);")]).1 p,
        (parseDDL [("CREATE TABLE a (id INT);"),
          ("CREATE TABLE b (FOREIGN KEY (x) REFERENCES a (id));"),
          ("CREATE TABLE c (id INT);")]).2.2.indexOf p
          < (parseDDL [("CREATE TABLE a (id INT);"),
            ("CREATE TABLE b (FOREIGN KEY (x) REFERENCES a (id));"),
            ("CREATE TABLE c (id INT);")]).2.2.indexOf c) ∧
    processSQL [("CREATE TABLE a (id INT);"),
        ("CREATE TABLE b (FOREIGN KEY (x) REFERENCES a (id));"),
        ("CREATE TABLE c (id INT);")]
      ≠ some (joinNL [("CREATE TABLE a (id INT);"),
        ("CREATE TABLE b (FOREIGN KEY (x) REFERENCES a (id));"),
        ("CREATE TABLE c (id INT);")]) := by
  constructor
  · decide
  · decide

/-- C4 amended: the round trip holds when the sorter's output order
coincides with the blocks' appearance order.  If the input is leading
content followed by table blocks `segs` with pairwise distinct names,
and `topologicalSort` returns exactly the names in appearance order,
then the pipeline reproduces the blocks verbatim, minus the leading
content.  (As stated the claim is false: an input already in a
dependency-satisfying order can still be permuted among
dependency-equal tables, see the counterexample.) -/
theorem roundtrip_when_sorter_preserves_appearance
    (pre rest : List String) (segs : List (String × List String))
    (_hpre : ∀ p ∈ pre, findCreate p = none)
    (hseg : Segmented rest segs)
    (hnd : (segs.map Prod.fst).Nodup)
    (hsort : topologicalSort (parseDDL (pre ++ rest)).1
        (parseDDL (pre ++ rest)).2.1 = some (segs.map Prod.fst)) :
    processSQL (pre ++ rest) = some (joinNL rest) := by
  show (topologicalSort (parseDDL (pre ++ rest)).1
      (parseDDL (pre ++ rest)).2.1).map
    (fun sortedTables => outputDDL (pre ++ rest) sortedTables)
      = some (joinNL rest)
  rw [hsort]
  show some (outputDDL (pre ++ rest) (segs.map Prod.fst)) = _
  unfold outputDDL
  have h1 : (segs.map Prod.fst).filterMap
      (fun t => List.lookup t (buildBlocksMap (pre ++ rest)))
        = segs.map (fun e => joinNL e.2) := by
    refine filterMap_of_map_some ?_
    rw [map_lookup_segs segs rest pre hseg hnd]
    rw [List.map_map]
    rfl
  rw [h1, joinNL_of_segs hseg]

/-- Witness for the amended C4 at a concrete input. -/
theorem roundtrip_when_sorter_preserves_appearance_witness :
    processSQL ([("-- lead")] ++ [("CREATE TABLE a ("), (")"),
        ("CREATE TABLE b ("), ("  FOREIGN KEY (x) REFERENCES a (id),"), (")")])
      = some (joinNL [("CREATE TABLE a ("), (")"),
        ("CREATE TABLE b ("), ("  FOREIGN KEY (x) REFERENCES a (id),"), (")")]) :=
  roundtrip_when_sorter_preserves_appearance [("-- lead")]
    [("CREATE TABLE a ("), (")"),
      ("CREATE TABLE b ("), ("  FOREIGN KEY (x) REFERENCES a (id),"), (")")]
    [(("a"), [("CREATE TABLE a ("), (")")]),
      (("b"), [("CREATE TABLE b ("), ("  FOREIGN KEY (x) REFERENCES a (id),"), (")")])]
    (by decide)
    (@Segmented.block ("CREATE TABLE a (") ("a") [(")")]
      [("CREATE TABLE b ("), ("  FOREIGN KEY (x) REFERENCES a (id),"), (")")]
      [(("b"), [("CREATE TABLE b ("), ("  FOREIGN KEY (x) REFERENCES a (id),"), (")")])]
      (by decide) (by decide)
      (@Segmented.block ("CREATE TABLE b (") ("b")
        [("  FOREIGN KEY (x) REFERENCES a (id),"), (")")] [] []
        (by decide) (by decide) Segmented.nil))
    (by decide) (by decide)

end OrderDDL
